import Mathlib

/-!
Verification of the Sudoku core engine (src/sudoku/core.ts).

The board is a 9x9 grid of natural-number cell values, 0 meaning empty
(source: type Board = CellValue[][] with indices 0-8).  We embed it as a
total function on Fin 9 x Fin 9; in-place mutation of a cell becomes the
functional update Board.set.  The JavaScript random source Math.random is
embedded as an explicit stream of raw natural draws (Rng); each consuming
operation returns the advanced stream, and Math.floor(Math.random() * n)
is embedded as taking the next raw draw modulo n, which ranges over
exactly the same set of outcomes 0..n-1.
-/

/-- A random source: an infinite stream of raw natural draws. -/
def Rng : Type := Nat → Nat

/-- The next raw draw of the stream. -/
def Rng.head (g : Rng) : Nat := g 0

/-- The stream after consuming one draw. -/
def Rng.tail (g : Rng) : Rng := fun n => g (n + 1)

/-- A 9x9 Sudoku grid; cell values are naturals, 0 = empty
(source: type Board = CellValue[][]). -/
def Board : Type := Fin 9 → Fin 9 → Nat

instance : DecidableEq Board := by unfold Board; infer_instance

/-- In-place cell assignment board[r][c] = v, embedded functionally. -/
def Board.set (b : Board) (r c : Fin 9) (v : Nat) : Board :=
  fun r' c' => if r' = r ∧ c' = c then v else b r' c'

/-- Source emptyBoard(): the 9x9 grid of zeros. -/
def emptyBoard : Board := fun _ _ => 0

/-- Source cloneBoard(b): a deep copy.  Boards are immutable values in the
embedding, so a deep copy is the value itself. -/
def cloneBoard (b : Board) : Board := b

/-- Source boardEquals(a, b): cell-wise equality of two grids. -/
def boardEquals (a b : Board) : Bool := decide (∀ r c, a r c = b r c)

/-- Source isComplete(board): no cell is zero. -/
def isComplete (b : Board) : Bool := decide (∀ r c, b r c ≠ 0)

/-- The k-th row (or column) index of the 3-row band containing index i,
i.e. Math.floor(i / 3) * 3 + k from the box scan of isValidPlacement. -/
def boxIdx (i : Fin 9) (k : Fin 3) : Fin 9 :=
  ⟨i.val / 3 * 3 + k.val, by omega⟩

/-- Source isValidPlacement(board, row, col, value): the row scan, the
column scan, and the 3x3 box scan; false as soon as any scanned cell
already holds the value.  The scanned box has top-left
(Math.floor(row/3)*3, Math.floor(col/3)*3). -/
def isValidPlacement (b : Board) (row col : Fin 9) (v : Nat) : Bool :=
  decide (∀ c : Fin 9, b row c ≠ v) &&
  decide (∀ r : Fin 9, b r col ≠ v) &&
  decide (∀ i : Fin 3, ∀ j : Fin 3, b (boxIdx row i) (boxIdx col j) ≠ v)

/-- The four difficulty levels of the source. -/
inductive DifficultyLevel : Type
  | EASY
  | MEDIUM
  | HARD
  | EXPERT
deriving DecidableEq, Fintype

/-- One entry of the difficulty table. -/
structure DifficultyConfig where
  minGiven : Nat
  maxGiven : Nat
  maxAttempts : Nat
  description : String
deriving DecidableEq

/-- Source DIFFICULTY_CONFIG: the fixed lookup from level to profile. -/
def DIFFICULTY_CONFIG : DifficultyLevel → DifficultyConfig
  | .EASY => ⟨36, 40, 3, "Good for beginners"⟩
  | .MEDIUM => ⟨32, 35, 5, "Moderate challenge"⟩
  | .HARD => ⟨28, 31, 7, "For experienced players"⟩
  | .EXPERT => ⟨24, 27, 9, "Very few givens, can require advanced strategies"⟩

/-- The error kind the specification prescribes for malformed input. -/
inductive SudokuErrorKind : Type
  | invalidArgument
deriving DecidableEq

/-- Modelled from the spec: the specification (section 7) prescribes that
every public operation validate its input (9x9 shape, coordinates in
range, cell values 0-9) and fail with an InvalidArgument kind on
malformed input.  No such check exists anywhere in src/sudoku/core.ts,
so this guarded variant of isValidPlacement is modelled from the spec's
words for comparison with the source function (the 9x9 shape is inherent
in the Board type; coordinates are taken raw here so the range check is
expressible). -/
def isValidPlacementChecked (b : Board) (row col v : Nat) :
    Except SudokuErrorKind Bool :=
  if h : row < 9 ∧ col < 9 ∧ v ≤ 9 then
    .ok (isValidPlacement b ⟨row, h.1⟩ ⟨col, h.2.1⟩ v)
  else
    .error .invalidArgument

/-! ### The peer relation and the meaning of isValidPlacement -/

/-- Two cells see each other: same row, same column, or same 3x3 box
(the box of (r, c) has top-left (r/3*3, c/3*3), so shared box means equal
row and column quotients by 3). -/
def sameUnit (r c r' c' : Fin 9) : Prop :=
  r' = r ∨ c' = c ∨ (r'.val / 3 = r.val / 3 ∧ c'.val / 3 = c.val / 3)

/-! ### Random helpers: Fisher-Yates shuffle and randInt -/

/-- The destructuring swap [arr[i], arr[j]] = [arr[j], arr[i]]: both
values are read from the original list before the two writes. -/
def listSwap (l : List Nat) (i j : Nat) : List Nat :=
  (l.set i (l.getD j 0)).set j (l.getD i 0)

/-- The Fisher-Yates loop of shuffleInPlace, from index i down to 1; at
index i the partner j = randomDraw mod (i + 1) ranges over 0..i exactly as
Math.floor(Math.random() * (i + 1)) does. -/
def shuffleAux (l : List Nat) (i : Nat) (g : Rng) : List Nat × Rng :=
  match i with
  | 0 => (l, g)
  | i' + 1 =>
    let j := g.head % (i' + 2)
    shuffleAux (listSwap l (i' + 1) j) i' g.tail

/-- Source shuffleInPlace(arr): Fisher-Yates from arr.length - 1 down to 1. -/
def shuffleInPlace (l : List Nat) (g : Rng) : List Nat × Rng :=
  shuffleAux l (l.length - 1) g

/-- Source randInt(min, max): an inclusive uniform draw,
Math.floor(Math.random() * (max - min + 1)) + min. -/
def randInt (mn mx : Nat) (g : Rng) : Nat × Rng :=
  (mn + g.head % (mx - mn + 1), g.tail)

/-! ### Candidate lists and cell scanning -/

/-- The candidate collection loop of the solver: the values 1..9 passing
isValidPlacement at (r, c), in ascending order. -/
def candidateList (b : Board) (r c : Fin 9) : List Nat :=
  (List.range' 1 9).filter (fun v => isValidPlacement b r c v)

/-- The 81 cells in row-major scan order. -/
def allCells : List (Fin 9 × Fin 9) := (List.finRange 9) ×ˢ (List.finRange 9)

/-- The Minimum Remaining Values scan of the solver: row-major over the
cells, tracking the first empty cell with the fewest candidates seen so
far (strict improvement only), stopping the whole scan the moment a cell
with exactly one candidate is recorded. -/
def selectCellAux (b : Board) :
    List (Fin 9 × Fin 9) → Nat → Option (Fin 9 × Fin 9) → Option (Fin 9 × Fin 9)
  | [], _, sel => sel
  | rc :: rest, minOpts, sel =>
    if b rc.1 rc.2 = 0 then
      let k := (candidateList b rc.1 rc.2).length
      if k < minOpts then
        if k = 1 then some rc
        else selectCellAux b rest k (some rc)
      else selectCellAux b rest minOpts sel
    else selectCellAux b rest minOpts sel

/-- The cell-selection phase of backtrack(): row = -1 becomes none. -/
def selectCell (b : Board) : Option (Fin 9 × Fin 9) :=
  selectCellAux b allCells 10 none

/-- The board is complete: no cell is empty. -/
def Complete (b : Board) : Prop := ∀ r c, b r c ≠ 0

/-! ### Cell counting -/

/-- Source countFilled(board): the number of nonzero cells. -/
def countFilled (b : Board) : Nat :=
  (allCells.filter (fun rc => decide (b rc.1 rc.2 ≠ 0))).length

/-- The number of empty cells; the termination measure of the solver. -/
def emptyCount (b : Board) : Nat :=
  (allCells.filter (fun rc => decide (b rc.1 rc.2 = 0))).length

/-! ### Completions -/

/-- x agrees with b on every filled cell of b. -/
def Extends (b x : Board) : Prop := ∀ r c, b r c ≠ 0 → x r c = b r c

/-- No peer of (r, c) holds the same value as (r, c): placing the cell's
value back into the cell after clearing it would be accepted. -/
def NoConflictAt (b : Board) (r c : Fin 9) : Prop :=
  isValidPlacement (b.set r c 0) r c (b r c) = true

/-- The full assignments the backtracking search can reach from b: complete
grids extending b whose newly filled cells hold values 1..9 that conflict
with no peer.  (Conflicts among the pre-filled cells of b are invisible to
the search, which never re-checks them.) -/
def SolverCompletion (b x : Board) : Prop :=
  Complete x ∧ Extends b x ∧
    ∀ r c, b r c = 0 → (1 ≤ x r c ∧ x r c ≤ 9 ∧ NoConflictAt x r c)

/-- A complete legal grid extending b: every cell in 1..9 and conflict
free (every row, column and box scan passes everywhere). -/
def LegalCompletion (b x : Board) : Prop :=
  Complete x ∧ Extends b x ∧
    ∀ r c, (1 ≤ x r c ∧ x r c ≤ 9 ∧ NoConflictAt x r c)

/-! ### The backtracking solver -/

/-- The record returned by solve(): solved flag, and in count mode the
number of solutions found (capped by the early abort). -/
structure SolveResult where
  solved : Bool
  solutions : Option Nat
deriving DecidableEq

/-- The candidate loop of backtrack(): assign the value, run the
recursive search (passed in as recur), and on a true result return
immediately in first-solution mode or once the solution counter exceeds
one in count mode; otherwise reset the cell to 0 and go on with the next
candidate. -/
def tryCandsAux (cnt : Bool)
    (recur : Board → Nat → Rng → Bool × Board × Nat × Rng)
    (r c : Fin 9) : List Nat → Board → Nat → Rng → Bool × Board × Nat × Rng
  | [], b, sols, g => (false, b, sols, g)
  | v :: rest, b, sols, g =>
    let res := recur (b.set r c v) sols g
    if res.1 && (!cnt || decide (1 < res.2.2.1)) then res
    else tryCandsAux cnt recur r c rest (res.2.1.set r c 0) res.2.2.1 res.2.2.2

/-- Source backtrack() of solve(): pick a cell by the MRV scan (none
means a full assignment: count it and report success), otherwise try the
shuffled legal candidates at the chosen cell.  The structural fuel bounds
the recursion depth; solve calls with fuel 81 and every recursive call
keeps fuel at or above the number of empty cells, so the fuel = 0 branch
below is never reached (each invariant proved about backtrackAux assumes
emptyCount b ≤ fuel, which solve establishes). -/
def backtrackAux (cnt : Bool) : Nat → Board → Nat → Rng →
    Bool × Board × Nat × Rng
  | fuel, b, sols, g =>
    match selectCell b with
    | none => (true, b, sols + 1, g)
    | some rc =>
      match fuel with
      | 0 => (false, b, sols, g)
      | f + 1 =>
        let s := shuffleInPlace (candidateList b rc.1 rc.2) g
        tryCandsAux cnt (backtrackAux cnt f) rc.1 rc.2 s.1 b sols s.2

/-- Source solve(board, countSolutions): run backtrack on a scratch copy
of the caller's grid; in first-solution mode copy the solved scratch grid
back over the caller's grid on success; in count mode report
{solved: solutions > 0, solutions} and leave the caller's grid alone.
The returned board is the caller's grid as visible after the call. -/
def solve (board : Board) (cnt : Bool) (g : Rng) :
    (SolveResult × Board) × Rng :=
  let res := backtrackAux cnt 81 board 0 g
  if cnt then
    ((⟨decide (0 < res.2.2.1), some res.2.2.1⟩, board), res.2.2.2)
  else
    if res.1 then ((⟨true, none⟩, res.2.1), res.2.2.2)
    else ((⟨false, none⟩, board), res.2.2.2)

/-! ### Multiplicity of solver completions -/

/-- b has at least one reachable full assignment. -/
def HasC (b : Board) : Prop := ∃ x, SolverCompletion b x

/-- b has exactly one reachable full assignment. -/
def UniqC (b : Board) : Prop := ∃! x, SolverCompletion b x

/-- b has at least two distinct reachable full assignments. -/
def MultiC (b : Board) : Prop :=
  ∃ x y, SolverCompletion b x ∧ SolverCompletion b y ∧ x ≠ y

/-- A completion of m whose value at (r, c) lies in the candidate list
fragment S: the completions reachable through the untried candidates. -/
def ViaP (m : Board) (r c : Fin 9) (S : List Nat) (x : Board) : Prop :=
  SolverCompletion m x ∧ x r c ∈ S

def HasVia (m : Board) (r c : Fin 9) (S : List Nat) : Prop :=
  ∃ x, ViaP m r c S x

def UniqVia (m : Board) (r c : Fin 9) (S : List Nat) : Prop :=
  (∃ x, ViaP m r c S x) ∧ ∀ x y, ViaP m r c S x → ViaP m r c S y → x = y

def MultiVia (m : Board) (r c : Fin 9) (S : List Nat) : Prop :=
  ∃ x y, ViaP m r c S x ∧ ViaP m r c S y ∧ x ≠ y

/-! ### The count-mode invariant -/

/-- What backtrack() guarantees in count mode at a given fuel level,
assuming the fuel covers the number of empty cells and at most one
solution has been counted so far: a false return restores the scratch
board and leaves the counter at its entry value (no completion) or at 1
having started from 0 (unique completion); a true return either
reports a unique completion found at a full assignment (counter now 1)
or aborts with the counter at 2, which certifies two distinct
completions when the counter started at 0 and at least one when it
started at 1. -/
def BackCountInv (f : Nat) : Prop :=
  ∀ (b : Board) (sols : Nat) (g : Rng) (ok : Bool) (b2 : Board)
    (sols2 : Nat) (g2 : Rng),
    emptyCount b ≤ f → sols ≤ 1 →
    backtrackAux true f b sols g = (ok, b2, sols2, g2) →
    (ok = false → b2 = b ∧
      ((sols2 = sols ∧ ¬ HasC b) ∨ (sols = 0 ∧ sols2 = 1 ∧ UniqC b)))
    ∧ (ok = true →
      ((sols = 0 ∧ sols2 = 1 ∧ UniqC b ∧ b2 = b ∧ Complete b)
        ∨ (sols = 0 ∧ sols2 = 2 ∧ MultiC b)
        ∨ (sols = 1 ∧ sols2 = 2 ∧ HasC b)))

/-- The corresponding guarantee for the candidate loop, relative to the
untried candidate fragment. -/
def TryCountInv (f : Nat) : Prop :=
  ∀ (m : Board) (r c : Fin 9) (cands : List Nat) (sols : Nat) (g : Rng)
    (ok : Bool) (b2 : Board) (sols2 : Nat) (g2 : Rng),
    m r c = 0 → emptyCount m ≤ f + 1 → sols ≤ 1 →
    cands.Nodup → (∀ v ∈ cands, v ∈ candidateList m r c) →
    tryCandsAux true (backtrackAux true f) r c cands m sols g
      = (ok, b2, sols2, g2) →
    (ok = false → b2 = m ∧
      ((sols2 = sols ∧ ¬ HasVia m r c cands)
        ∨ (sols = 0 ∧ sols2 = 1 ∧ UniqVia m r c cands)))
    ∧ (ok = true → sols2 = 2 ∧ (sols = 1 → HasVia m r c cands)
        ∧ (sols = 0 → MultiVia m r c cands))

/-! ### The first-solution-mode invariant -/

/-- What backtrack() guarantees in first-solution mode: a true return
leaves the scratch board at a reachable full assignment of the input
board, a false return restores the input board and certifies that no
completion exists. -/
def BackSolveInv (f : Nat) : Prop :=
  ∀ (b : Board) (sols : Nat) (g : Rng) (ok : Bool) (b2 : Board)
    (sols2 : Nat) (g2 : Rng),
    emptyCount b ≤ f →
    backtrackAux false f b sols g = (ok, b2, sols2, g2) →
    (ok = true → SolverCompletion b b2)
    ∧ (ok = false → b2 = b ∧ ¬ HasC b)

def TrySolveInv (f : Nat) : Prop :=
  ∀ (m : Board) (r c : Fin 9) (cands : List Nat) (sols : Nat) (g : Rng)
    (ok : Bool) (b2 : Board) (sols2 : Nat) (g2 : Rng),
    m r c = 0 → emptyCount m ≤ f + 1 →
    (∀ v ∈ cands, v ∈ candidateList m r c) →
    tryCandsAux false (backtrackAux false f) r c cands m sols g
      = (ok, b2, sols2, g2) →
    (ok = true → SolverCompletion m b2)
    ∧ (ok = false → b2 = m ∧ ¬ HasVia m r c cands)

/-! ### The full-grid generator -/

/-- The nextCell() scan of fillBoard: the first empty cell in row-major
order. -/
def firstEmpty (b : Board) : Option (Fin 9 × Fin 9) :=
  allCells.find? (fun rc => decide (b rc.1 rc.2 = 0))

/-- The candidate loop of fillBoard: try each value of the shuffled
1..9 list in turn, checking legality in the loop; on a failed recursion
reset the cell to 0 and continue. -/
def fillTryAux (recur : Board → Rng → Bool × Board × Rng) (r c : Fin 9) :
    List Nat → Board → Rng → Bool × Board × Rng
  | [], b, g => (false, b, g)
  | v :: rest, b, g =>
    if isValidPlacement b r c v then
      let res := recur (b.set r c v) g
      if res.1 then res
      else fillTryAux recur r c rest (res.2.1.set r c 0) res.2.2
    else fillTryAux recur r c rest b g

/-- Source fillBoard(board): fill the first empty cell (row-major scan)
trying the numbers 1..9 in a freshly shuffled order, recursing and
undoing on dead ends; true when all 81 cells are filled.  Fuel as for
backtrackAux. -/
def fillBoardAux : Nat → Board → Rng → Bool × Board × Rng
  | fuel, b, g =>
    match firstEmpty b with
    | none => (true, b, g)
    | some rc =>
      match fuel with
      | 0 => (false, b, g)
      | f + 1 =>
        let s := shuffleInPlace [1, 2, 3, 4, 5, 6, 7, 8, 9] g
        fillTryAux (fillBoardAux f) rc.1 rc.2 s.1 b s.2

def fillBoard (b : Board) (g : Rng) : Bool × Board × Rng :=
  fillBoardAux 81 b g

/-- The guarantee of fillBoard at each fuel level: success leaves a
reachable full assignment, failure restores the board and certifies
that no completion exists. -/
def FillInv (f : Nat) : Prop :=
  ∀ (b : Board) (g : Rng) (ok : Bool) (b2 : Board) (g2 : Rng),
    emptyCount b ≤ f →
    fillBoardAux f b g = (ok, b2, g2) →
    (ok = true → SolverCompletion b b2)
    ∧ (ok = false → b2 = b ∧ ¬ HasC b)

def FillTryInv (f : Nat) : Prop :=
  ∀ (m : Board) (r c : Fin 9) (cands : List Nat) (g : Rng) (ok : Bool)
    (b2 : Board) (g2 : Rng),
    m r c = 0 → emptyCount m ≤ f + 1 →
    (∀ v ∈ cands, 1 ≤ v ∧ v ≤ 9) →
    fillTryAux (fillBoardAux f) r c cands m g = (ok, b2, g2) →
    (ok = true → SolverCompletion m b2)
    ∧ (ok = false → b2 = m ∧ ¬ HasVia m r c cands)

instance (b : Board) : Decidable (Complete b) := by
  unfold Complete; infer_instance

instance (b x : Board) : Decidable (Extends b x) := by
  unfold Extends; infer_instance

instance (b : Board) (r c : Fin 9) : Decidable (NoConflictAt b r c) := by
  unfold NoConflictAt; infer_instance

instance (b x : Board) : Decidable (SolverCompletion b x) := by
  unfold SolverCompletion; infer_instance

instance (b x : Board) : Decidable (LegalCompletion b x) := by
  unfold LegalCompletion; infer_instance

/-- A concrete legal full grid (the cyclic-band pattern), witnessing that
the empty board has at least one completion. -/
def G0 : Board := fun r c => (3 * r.val + r.val / 3 + c.val) % 9 + 1

/-! ### The puzzle carver -/

/-- The row of flat cell index idx, Math.floor(idx / 9); the reduction
mod 9 is the identity for every index the carver uses (idx < 81). -/
def rIdx (idx : Nat) : Fin 9 := ⟨idx / 9 % 9, Nat.mod_lt _ (by omega)⟩

/-- The column of flat cell index idx, idx % 9. -/
def cIdx (idx : Nat) : Fin 9 := ⟨idx % 9, Nat.mod_lt _ (by omega)⟩

/-- The while loop of carvePuzzle: while untried positions remain, the
filled count exceeds the target and the attempt budget
maxAttempts * 81 is not spent, pop the last position of the shuffled
removal order, clear that cell, test uniqueness with solve in count
mode, revert the cell unless the count is exactly 1, and count the
attempt.  Returns the final board, the attempts consumed, and the
advanced random stream. -/
def carveLoop (b : Board) (cells : List Nat) (target attempts maxA : Nat)
    (g : Rng) : Board × Nat × Rng :=
  if h : cells ≠ [] ∧ target < countFilled b ∧ attempts < maxA * 81 then
    let idx := cells.getLast h.1
    let r : Fin 9 := rIdx idx
    let c : Fin 9 := cIdx idx
    let backup := b r c
    let b1 := b.set r c 0
    let res := solve b1 true g
    let b2 := if res.1.1.solutions = some 1 then b1 else b1.set r c backup
    carveLoop b2 cells.dropLast target (attempts + 1) maxA res.2
  else (b, attempts, g)
termination_by cells.length
decreasing_by
  rcases cells with _ | ⟨x, t⟩
  · exact absurd rfl h.1
  · simp [List.length_dropLast]

/-- Source carvePuzzle(board, minGiven, maxGiven, maxAttempts): choose a
target given-count in [minGiven, maxGiven], shuffle the 81 cell
positions as the removal order, run the removal loop, and return a copy
of the resulting board. -/
def carvePuzzle (board : Board) (minGiven maxGiven maxAttempts : Nat)
    (g : Rng) : Board × Rng :=
  let t := randInt minGiven maxGiven g
  let s := shuffleInPlace (List.range 81) t.2
  let res := carveLoop board s.1 t.1 0 maxAttempts s.2
  (cloneBoard res.1, res.2.2)

/-- The bundle returned by generatePuzzle. -/
structure Puzzle where
  puzzle : Board
  solution : Board
  difficulty : DifficultyLevel

/-- Source generatePuzzle(difficulty): synthesize a full grid with
fillBoard (its boolean result is ignored by the source), clone it as the
solution, and carve the puzzle out of it under the difficulty profile. -/
def generatePuzzle (d : DifficultyLevel) (g : Rng) : Puzzle × Rng :=
  let config := DIFFICULTY_CONFIG d
  let fill := fillBoard emptyBoard g
  let full := fill.2.1
  let solution := cloneBoard full
  let carved := carvePuzzle full config.minGiven config.maxGiven
    config.maxAttempts fill.2.2
  (⟨carved.1, solution, d⟩, carved.2)

/-! ### Box coordinates and concrete values -/

/-- The i-th cell index inside the band of a box coordinate t (0..2). -/
def boxCell (t : Fin 3) (i : Fin 3) : Fin 9 := ⟨3 * t.val + i.val, by omega⟩

/-- A concrete random stream for the witnesses. -/
def rng0 : Rng := fun _ => 0

/-! ### Basic board lemmas -/

theorem Board.set_same (b : Board) (r c : Fin 9) (v : Nat) :
    b.set r c v r c = v := by
  simp [Board.set]

theorem Board.set_other (b : Board) (r c : Fin 9) (v : Nat) (r' c' : Fin 9)
    (h : ¬(r' = r ∧ c' = c)) : b.set r c v r' c' = b r' c' := by
  simp [Board.set, h]

theorem Board.set_set (b : Board) (r c : Fin 9) (v w : Nat) :
    (b.set r c v).set r c w = b.set r c w := by
  funext r' c'
  by_cases h : r' = r ∧ c' = c <;> simp [Board.set, h]

theorem Board.set_id (b : Board) (r c : Fin 9) (v : Nat) (h : b r c = v) :
    b.set r c v = b := by
  funext r' c'
  by_cases hc : r' = r ∧ c' = c
  · obtain ⟨rfl, rfl⟩ := hc; simp [Board.set, h]
  · simp [Board.set, hc]

/-- Reverting a removal: setting the cell back to its recorded value
restores the original board. -/
theorem Board.set_zero_set_back (b : Board) (r c : Fin 9) :
    (b.set r c 0).set r c (b r c) = b := by
  rw [Board.set_set, Board.set_id]
  rfl

theorem sameUnit_symm {r c r' c' : Fin 9} (h : sameUnit r c r' c') :
    sameUnit r' c' r c := by
  rcases h with h | h | h
  · exact Or.inl h.symm
  · exact Or.inr (Or.inl h.symm)
  · exact Or.inr (Or.inr ⟨h.1.symm, h.2.symm⟩)

theorem sameUnit_self (r c : Fin 9) : sameUnit r c r c := Or.inl rfl

/-- The indices scanned by the box loop are exactly the indices with the
same quotient by 3. -/
theorem boxIdx_surj {i i' : Fin 9} (h : i'.val / 3 = i.val / 3) :
    ∃ k : Fin 3, boxIdx i k = i' := by
  refine ⟨⟨i'.val % 3, Nat.mod_lt _ (by omega)⟩, ?_⟩
  apply Fin.ext
  simp only [boxIdx]
  omega

theorem boxIdx_div (i : Fin 9) (k : Fin 3) : (boxIdx i k).val / 3 = i.val / 3 := by
  have h3 : i.val / 3 ≤ 2 := by omega
  simp only [boxIdx]
  omega

/-- isValidPlacement succeeds exactly when no peer of the target cell
(the target cell itself included) holds the value. -/
theorem isValidPlacement_true_iff (b : Board) (row col : Fin 9) (v : Nat) :
    isValidPlacement b row col v = true ↔
      ∀ r c, sameUnit row col r c → b r c ≠ v := by
  simp only [isValidPlacement, Bool.and_eq_true, decide_eq_true_eq]
  constructor
  · rintro ⟨⟨hrow, hcol⟩, hbox⟩ r c hsame
    rcases hsame with rfl | rfl | ⟨hr, hc⟩
    · exact hrow c
    · exact hcol r
    · obtain ⟨i, hi⟩ := boxIdx_surj hr
      obtain ⟨j, hj⟩ := boxIdx_surj hc
      rw [← hi, ← hj]
      exact hbox i j
  · intro h
    refine ⟨⟨fun c => h row c (Or.inl rfl), fun r => h r col (Or.inr (Or.inl rfl))⟩,
      fun i j => h (boxIdx row i) (boxIdx col j) ?_⟩
    exact Or.inr (Or.inr ⟨boxIdx_div row i, boxIdx_div col j⟩)

theorem isValidPlacement_false_iff (b : Board) (row col : Fin 9) (v : Nat) :
    isValidPlacement b row col v = false ↔
      ∃ r c, sameUnit row col r c ∧ b r c = v := by
  rw [← Bool.not_eq_true, isValidPlacement_true_iff]
  push_neg
  constructor
  · rintro ⟨r, c, h1, h2⟩; exact ⟨r, c, h1, h2⟩
  · rintro ⟨r, c, h1, h2⟩; exact ⟨r, c, h1, h2⟩

/-! ### Claim C5: the meaning of isValidPlacement -/

/-- C5: isValidPlacement(grid, row, col, value) returns false exactly when
the value occurs somewhere in the row, in the column, or in the 3x3 box
with top-left (row/3*3, col/3*3); the target cell is not exempted, so a
cell already holding the value makes the check fail. -/
theorem C5_isValidPlacement_spec (b : Board) (row col : Fin 9) (v : Nat) :
    (isValidPlacement b row col v = false ↔
      ((∃ c, b row c = v) ∨ (∃ r, b r col = v) ∨
        (∃ r c, r.val / 3 = row.val / 3 ∧ c.val / 3 = col.val / 3 ∧ b r c = v)))
    ∧ (b row col = v → isValidPlacement b row col v = false) := by
  constructor
  · rw [isValidPlacement_false_iff]
    constructor
    · rintro ⟨r, c, hsame, hv⟩
      rcases hsame with rfl | rfl | ⟨hr, hc⟩
      · exact Or.inl ⟨c, hv⟩
      · exact Or.inr (Or.inl ⟨r, hv⟩)
      · exact Or.inr (Or.inr ⟨r, c, hr, hc, hv⟩)
    · rintro (⟨c, hv⟩ | ⟨r, hv⟩ | ⟨r, c, hr, hc, hv⟩)
      · exact ⟨row, c, Or.inl rfl, hv⟩
      · exact ⟨r, col, Or.inr (Or.inl rfl), hv⟩
      · exact ⟨r, c, Or.inr (Or.inr ⟨hr, hc⟩), hv⟩
  · intro h
    rw [isValidPlacement_false_iff]
    exact ⟨row, col, sameUnit_self row col, h⟩

/-- C5 witness: on a board whose (0,0) cell holds 5, testing 5 at (0,0)
fails, exactly as the theorem's second conjunct states. -/
theorem C5_isValidPlacement_spec_witness :
    (fun (r c : Fin 9) => if r = 0 ∧ c = 0 then 5 else 0) 0 0 = 5 ∧
      isValidPlacement (fun r c => if r = 0 ∧ c = 0 then 5 else 0) 0 0 5 = false :=
  ⟨by decide, (C5_isValidPlacement_spec (fun r c => if r = 0 ∧ c = 0 then 5 else 0)
      0 0 5).2 (by decide)⟩

/-! ### Claim C7: the difficulty table -/

/-- C7: every difficulty entry satisfies minGiven ≤ maxGiven within
[0,81]; as difficulty increases the given-count ranges strictly decrease
(each harder level's maxGiven is below each easier level's minGiven) and
the attempt budgets strictly increase. -/
theorem C7_difficulty_config_ordered :
    (∀ d, (DIFFICULTY_CONFIG d).minGiven ≤ (DIFFICULTY_CONFIG d).maxGiven ∧
      (DIFFICULTY_CONFIG d).maxGiven ≤ 81) ∧
    (DIFFICULTY_CONFIG .MEDIUM).maxGiven < (DIFFICULTY_CONFIG .EASY).minGiven ∧
    (DIFFICULTY_CONFIG .HARD).maxGiven < (DIFFICULTY_CONFIG .MEDIUM).minGiven ∧
    (DIFFICULTY_CONFIG .HARD).maxGiven < (DIFFICULTY_CONFIG .EASY).minGiven ∧
    (DIFFICULTY_CONFIG .EXPERT).maxGiven < (DIFFICULTY_CONFIG .HARD).minGiven ∧
    (DIFFICULTY_CONFIG .EXPERT).maxGiven < (DIFFICULTY_CONFIG .MEDIUM).minGiven ∧
    (DIFFICULTY_CONFIG .EXPERT).maxGiven < (DIFFICULTY_CONFIG .EASY).minGiven ∧
    (DIFFICULTY_CONFIG .EASY).maxAttempts < (DIFFICULTY_CONFIG .MEDIUM).maxAttempts ∧
    (DIFFICULTY_CONFIG .MEDIUM).maxAttempts < (DIFFICULTY_CONFIG .HARD).maxAttempts ∧
    (DIFFICULTY_CONFIG .HARD).maxAttempts < (DIFFICULTY_CONFIG .EXPERT).maxAttempts := by
  refine ⟨fun d => ?_, ?_, ?_, ?_, ?_, ?_, ?_, ?_, ?_, ?_⟩ <;> first
    | decide
    | (cases d <;> exact ⟨by decide, by decide⟩)

/-! ### Claim C8: no precondition checks exist in the code -/

/-- C8 counterexample: with the malformed value 15 (outside 0-9) the
source isValidPlacement proceeds with its normal scan and returns the
ordinary result true on the empty board, while the precondition-checked
operation the claim describes would fail with InvalidArgument; the
source function has no error outcome at all. -/
theorem C8_counterexample_no_precondition_check :
    isValidPlacement emptyBoard 0 0 15 = true ∧
      isValidPlacementChecked emptyBoard 0 0 15 =
        Except.error SudokuErrorKind.invalidArgument := by
  constructor
  · decide
  · rfl

/-- C8 amended: the code performs no input validation; a value outside
0-9 is never rejected with an error, the scans simply run and (on any
board whose cells are all in range) trivially succeed, returning true. -/
theorem C8_no_validation_of_out_of_range_values (b : Board) (row col : Fin 9)
    (v : Nat) (hb : ∀ r c, b r c ≤ 9) (hv : 10 ≤ v) :
    isValidPlacement b row col v = true := by
  rw [isValidPlacement_true_iff]
  intro r c _
  have := hb r c
  omega

/-- C8 amended witness: the out-of-range value 15 at (0,0) on the empty
board is accepted, not rejected. -/
theorem C8_no_validation_witness :
    isValidPlacement emptyBoard 0 0 15 = true :=
  C8_no_validation_of_out_of_range_values emptyBoard 0 0 15
    (fun _ _ => Nat.zero_le 9) (by omega)

theorem randInt_bounds (mn mx : Nat) (g : Rng) (h : mn ≤ mx) :
    mn ≤ (randInt mn mx g).1 ∧ (randInt mn mx g).1 ≤ mx := by
  have hm : g.head % (mx - mn + 1) < mx - mn + 1 := Nat.mod_lt _ (by omega)
  simp only [randInt]
  omega

theorem count_set (x v : Nat) : ∀ (l : List Nat) (i : Nat), i < l.length →
    (l.set i v).count x + (if l.getD i 0 = x then 1 else 0)
      = l.count x + (if v = x then 1 else 0)
  | [], i, h => by simp at h
  | a :: t, 0, _ => by
    simp only [List.set_cons_zero, List.count_cons, List.getD_cons_zero]
    by_cases hv : v = x <;> by_cases ha : a = x <;>
      simp [hv, ha, beq_iff_eq]
  | a :: t, i + 1, h => by
    have ih := count_set x v t i (by simpa using h)
    rw [List.set_cons_succ, List.getD_cons_succ, List.count_cons, List.count_cons]
    omega

theorem getD_set_same (l : List Nat) (i : Nat) (v : Nat) (h : i < l.length) :
    (l.set i v).getD i 0 = v := by
  rw [List.getD_eq_getElem?_getD, List.getElem?_set_self h]
  rfl

theorem getD_set_diff (l : List Nat) (i j : Nat) (v : Nat) (h : i ≠ j) :
    (l.set i v).getD j 0 = l.getD j 0 := by
  rw [List.getD_eq_getElem?_getD, List.getElem?_set_ne h, ← List.getD_eq_getElem?_getD]

theorem listSwap_count (l : List Nat) (i j : Nat) (hi : i < l.length)
    (hj : j < l.length) (x : Nat) : (listSwap l i j).count x = l.count x := by
  unfold listSwap
  have h1 := count_set x (l.getD j 0) l i hi
  have h2 := count_set x (l.getD i 0) (l.set i (l.getD j 0)) j
    (by rw [List.length_set]; exact hj)
  have hgd : (l.set i (l.getD j 0)).getD j 0 = l.getD j 0 := by
    by_cases hij : i = j
    · subst hij; exact getD_set_same l i _ hi
    · exact getD_set_diff l i j _ hij
  rw [hgd] at h2
  by_cases e1 : l.getD i 0 = x <;> by_cases e2 : l.getD j 0 = x <;>
    simp [e1, e2] at h1 h2 ⊢ <;> omega

theorem listSwap_length (l : List Nat) (i j : Nat) :
    (listSwap l i j).length = l.length := by
  simp [listSwap]

theorem shuffleAux_count (x : Nat) :
    ∀ (i : Nat) (l : List Nat) (g : Rng), i < l.length →
      ((shuffleAux l i g).1).count x = l.count x
  | 0, l, g, _ => rfl
  | i' + 1, l, g, h => by
    have hj : g.head % (i' + 2) < l.length :=
      lt_of_lt_of_le (Nat.mod_lt _ (by omega)) (by omega)
    have hlen : (listSwap l (i' + 1) (g.head % (i' + 2))).length = l.length :=
      listSwap_length l _ _
    have ih := shuffleAux_count x i' (listSwap l (i' + 1) (g.head % (i' + 2)))
      g.tail (by omega)
    simp only [shuffleAux]
    rw [ih, listSwap_count l _ _ h hj]

theorem shuffleInPlace_perm (l : List Nat) (g : Rng) :
    ((shuffleInPlace l g).1).Perm l := by
  rw [List.perm_iff_count]
  intro a
  rcases l with _ | ⟨b, t⟩
  · rfl
  · exact shuffleAux_count a ((b :: t).length - 1) (b :: t) g (by simp)

theorem shuffleInPlace_mem (l : List Nat) (g : Rng) (v : Nat) :
    v ∈ (shuffleInPlace l g).1 ↔ v ∈ l :=
  (shuffleInPlace_perm l g).mem_iff

theorem shuffleInPlace_nodup (l : List Nat) (g : Rng) (h : l.Nodup) :
    ((shuffleInPlace l g).1).Nodup :=
  ((shuffleInPlace_perm l g).nodup_iff).2 h

theorem shuffleInPlace_length (l : List Nat) (g : Rng) :
    ((shuffleInPlace l g).1).length = l.length :=
  (shuffleInPlace_perm l g).length_eq

theorem mem_candidateList (b : Board) (r c : Fin 9) (v : Nat) :
    v ∈ candidateList b r c ↔
      (1 ≤ v ∧ v ≤ 9 ∧ isValidPlacement b r c v = true) := by
  simp only [candidateList, List.mem_filter, List.mem_range'_1]
  constructor
  · rintro ⟨⟨h1, h2⟩, h3⟩
    exact ⟨h1, by omega, h3⟩
  · rintro ⟨h1, h2, h3⟩
    exact ⟨⟨h1, by omega⟩, h3⟩

theorem candidateList_nodup (b : Board) (r c : Fin 9) :
    (candidateList b r c).Nodup :=
  (List.nodup_range' 1 9).filter _

theorem candidateList_length_le (b : Board) (r c : Fin 9) :
    (candidateList b r c).length ≤ 9 := by
  have := List.length_filter_le (fun v => isValidPlacement b r c v) (List.range' 1 9)
  simpa [List.length_range'] using this

theorem mem_allCells (rc : Fin 9 × Fin 9) : rc ∈ allCells := by
  rcases rc with ⟨r, c⟩
  exact List.mem_product.2 ⟨List.mem_finRange r, List.mem_finRange c⟩

theorem allCells_length : allCells.length = 81 := by decide

theorem allCells_nodup : allCells.Nodup := by decide

theorem selectCellAux_none_sound (b : Board) :
    ∀ (l : List (Fin 9 × Fin 9)) (minOpts : Nat) (sel : Option (Fin 9 × Fin 9)),
      (sel = none → 9 < minOpts) →
      selectCellAux b l minOpts sel = none →
      sel = none ∧ ∀ rc ∈ l, b rc.1 rc.2 ≠ 0
  | [], minOpts, sel, _, h => ⟨h, by simp⟩
  | rc :: rest, minOpts, sel, hinv, h => by
    by_cases hz : b rc.1 rc.2 = 0
    · exfalso
      simp only [selectCellAux, hz, if_true] at h
      by_cases hk : (candidateList b rc.1 rc.2).length < minOpts
      · simp only [hk, if_true] at h
        by_cases h1 : (candidateList b rc.1 rc.2).length = 1
        · simp [h1] at h
        · simp only [h1, if_false] at h
          exact Option.some_ne_none rc (selectCellAux_none_sound b rest _ _
            (by intro hc; simp at hc) h).1
      · simp only [hk, if_false] at h
        rcases Option.eq_none_or_eq_some sel with hs | ⟨s, hs⟩
        · have := candidateList_length_le b rc.1 rc.2
          have := hinv hs
          omega
        · subst hs
          exact Option.some_ne_none s (selectCellAux_none_sound b rest _ _
            (by intro hc; simp at hc) h).1
    · simp only [selectCellAux, hz, if_false] at h
      obtain ⟨h1, h2⟩ := selectCellAux_none_sound b rest _ _ hinv h
      refine ⟨h1, ?_⟩
      intro x hx
      rcases List.mem_cons.1 hx with rfl | hx
      · exact hz
      · exact h2 x hx

theorem selectCellAux_of_all_filled (b : Board) :
    ∀ (l : List (Fin 9 × Fin 9)) (minOpts : Nat) (sel : Option (Fin 9 × Fin 9)),
      (∀ rc ∈ l, b rc.1 rc.2 ≠ 0) →
      selectCellAux b l minOpts sel = sel
  | [], _, _, _ => rfl
  | rc :: rest, minOpts, sel, h => by
    have hz : b rc.1 rc.2 ≠ 0 := h rc (List.mem_cons_self rc rest)
    simp only [selectCellAux, hz, if_false]
    exact selectCellAux_of_all_filled b rest minOpts sel
      (fun x hx => h x (List.mem_cons_of_mem rc hx))

theorem selectCellAux_some_empty (b : Board) :
    ∀ (l : List (Fin 9 × Fin 9)) (minOpts : Nat) (sel : Option (Fin 9 × Fin 9)) rc,
      (∀ s, sel = some s → b s.1 s.2 = 0) →
      selectCellAux b l minOpts sel = some rc →
      b rc.1 rc.2 = 0
  | [], minOpts, sel, rc, hsel, h => hsel rc h
  | x :: rest, minOpts, sel, rc, hsel, h => by
    by_cases hz : b x.1 x.2 = 0
    · simp only [selectCellAux, hz, if_true] at h
      by_cases hk : (candidateList b x.1 x.2).length < minOpts
      · simp only [hk, if_true] at h
        by_cases h1 : (candidateList b x.1 x.2).length = 1
        · simp only [h1, if_true, Option.some_inj] at h
          subst h; exact hz
        · simp only [h1, if_false] at h
          exact selectCellAux_some_empty b rest _ _ rc
            (by rintro s hs; cases hs; exact hz) h
      · simp only [hk, if_false] at h
        exact selectCellAux_some_empty b rest _ _ rc hsel h
    · simp only [selectCellAux, hz, if_false] at h
      exact selectCellAux_some_empty b rest _ _ rc hsel h

theorem selectCell_eq_none_iff (b : Board) :
    selectCell b = none ↔ Complete b := by
  constructor
  · intro h r c
    exact (selectCellAux_none_sound b allCells 10 none (fun _ => by omega) h).2
      (r, c) (mem_allCells (r, c))
  · intro h
    exact selectCellAux_of_all_filled b allCells 10 none
      (fun rc _ => h rc.1 rc.2)

theorem selectCell_some_empty (b : Board) (rc : Fin 9 × Fin 9)
    (h : selectCell b = some rc) : b rc.1 rc.2 = 0 :=
  selectCellAux_some_empty b allCells 10 none rc (by rintro s ⟨⟩) h

theorem filter_length_update {α : Type} (p q : α → Bool) :
    ∀ (l : List α), l.Nodup → ∀ a ∈ l, (∀ x ∈ l, x ≠ a → p x = q x) →
      p a = true → q a = false →
      (l.filter p).length = (l.filter q).length + 1
  | [], _, a, ha, _, _, _ => by simp at ha
  | x :: t, hnd, a, ha, hpq, hpa, hqa => by
    rcases List.mem_cons.1 ha with rfl | ha
    · have hnotin : a ∉ t := (List.nodup_cons.1 hnd).1
      have : t.filter p = t.filter q := by
        apply List.filter_congr
        intro y hy
        exact hpq y (List.mem_cons_of_mem a hy) (fun he => hnotin (he ▸ hy))
      simp [List.filter_cons, hpa, hqa, this]
    · have hx : x ≠ a := fun he => (List.nodup_cons.1 hnd).1 (he ▸ ha)
      have hpx := hpq x (List.mem_cons_self x t) hx
      have ih := filter_length_update p q t (List.nodup_cons.1 hnd).2 a ha
        (fun y hy hya => hpq y (List.mem_cons_of_mem x hy) hya) hpa hqa
      by_cases hc : p x = true <;>
        simp [List.filter_cons, hc, hpx ▸ hc, ih]

theorem board_set_ne_cell (b : Board) (r c : Fin 9) (v : Nat)
    (x : Fin 9 × Fin 9) (h : x ≠ (r, c)) :
    b.set r c v x.1 x.2 = b x.1 x.2 := by
  apply Board.set_other
  rintro ⟨h1, h2⟩
  exact h (Prod.ext h1 h2)

theorem emptyCount_set_filled (b : Board) (r c : Fin 9) (v : Nat)
    (h0 : b r c = 0) (hv : v ≠ 0) :
    emptyCount b = emptyCount (b.set r c v) + 1 := by
  apply filter_length_update _ _ allCells allCells_nodup (r, c) (mem_allCells _)
  · intro x _ hx
    simp only [decide_eq_decide]
    rw [board_set_ne_cell b r c v x hx]
  · simpa using h0
  · simp [Board.set_same, hv]

theorem countFilled_set_zero (b : Board) (r c : Fin 9) (h0 : b r c ≠ 0) :
    countFilled b = countFilled (b.set r c 0) + 1 := by
  apply filter_length_update _ _ allCells allCells_nodup (r, c) (mem_allCells _)
  · intro x _ hx
    simp only [decide_eq_decide]
    rw [board_set_ne_cell b r c 0 x hx]
  · simpa using h0
  · simp [Board.set_same]

theorem countFilled_le (b : Board) : countFilled b ≤ 81 := by
  have := List.length_filter_le (fun rc => decide (b rc.1 rc.2 ≠ 0)) allCells
  rw [allCells_length] at this
  exact this

theorem emptyCount_le (b : Board) : emptyCount b ≤ 81 := by
  have := List.length_filter_le (fun rc => decide (b rc.1 rc.2 = 0)) allCells
  rw [allCells_length] at this
  exact this

theorem countFilled_complete (b : Board) (h : Complete b) : countFilled b = 81 := by
  unfold countFilled
  rw [List.filter_eq_self.2 (fun rc _ => by simpa using h rc.1 rc.2), allCells_length]

theorem emptyCount_pos_of_empty_cell (b : Board) (r c : Fin 9)
    (h : b r c = 0) : 1 ≤ emptyCount b := by
  apply List.length_pos_of_mem
  apply List.mem_filter.2
  exact ⟨mem_allCells (r, c), by simpa using h⟩

theorem noConflictAt_iff (b : Board) (r c : Fin 9) :
    NoConflictAt b r c ↔
      (b r c ≠ 0 ∧ ∀ r' c', sameUnit r c r' c' → ¬(r' = r ∧ c' = c) →
        b r' c' ≠ b r c) := by
  unfold NoConflictAt
  rw [isValidPlacement_true_iff]
  constructor
  · intro h
    constructor
    · intro h0
      have := h r c (sameUnit_self r c)
      rw [Board.set_same] at this
      exact this h0.symm
    · intro r' c' hsame hne
      have := h r' c' hsame
      rwa [Board.set_other _ _ _ _ _ _ hne] at this
  · rintro ⟨h0, h⟩ r' c' hsame
    by_cases he : r' = r ∧ c' = c
    · obtain ⟨rfl, rfl⟩ := he
      rw [Board.set_same]
      exact fun hc => h0 hc.symm
    · rw [Board.set_other _ _ _ _ _ _ he]
      exact h r' c' hsame he

theorem scomp_self_of_complete (b : Board) (h : Complete b) :
    SolverCompletion b b :=
  ⟨h, fun _ _ _ => rfl, fun r c h0 => absurd h0 (h r c)⟩

theorem scomp_eq_of_complete (b x : Board) (h : Complete b)
    (hx : SolverCompletion b x) : x = b := by
  funext r c
  exact hx.2.1 r c (h r c)

theorem uniqC_of_complete (b : Board) (h : Complete b) :
    ∃! x, SolverCompletion b x :=
  ⟨b, scomp_self_of_complete b h, fun x hx => scomp_eq_of_complete b x h hx⟩

/-- At an empty cell of m, the value a solver completion assigns there is
a legal candidate of m. -/
theorem isValid_of_scomp (m x : Board) (hm : SolverCompletion m x)
    (r c : Fin 9) (h0 : m r c = 0) :
    isValidPlacement m r c (x r c) = true := by
  obtain ⟨hc, he, hn⟩ := hm
  obtain ⟨h1, h9, hnc⟩ := hn r c h0
  rw [isValidPlacement_true_iff]
  intro r' c' hsame hval
  by_cases hz : m r' c' = 0
  · omega
  · have hx : x r' c' = m r' c' := he r' c' hz
    have hne : ¬(r' = r ∧ c' = c) := by
      rintro ⟨rfl, rfl⟩
      exact hz h0
    have := ((noConflictAt_iff x r c).1 hnc).2 r' c' hsame hne
    rw [hx, hval] at this
    exact this rfl

theorem mem_candidate_of_scomp (m x : Board) (hm : SolverCompletion m x)
    (r c : Fin 9) (h0 : m r c = 0) :
    x r c ∈ candidateList m r c := by
  obtain ⟨h1, h9, _⟩ := hm.2.2 r c h0
  exact (mem_candidateList m r c (x r c)).2 ⟨h1, h9, isValid_of_scomp m x hm r c h0⟩

theorem set_zero_cancel (b : Board) (r c : Fin 9) (v : Nat) (h0 : b r c = 0) :
    (b.set r c v).set r c 0 = b := by
  rw [Board.set_set, Board.set_id b r c 0 h0]

/-- Bridging: the solver completions of m that assign v at the empty cell
(r, c) are exactly the solver completions of m with v placed at (r, c),
provided v is a legal candidate there. -/
theorem scomp_set_iff (m : Board) (r c : Fin 9) (v : Nat) (h0 : m r c = 0)
    (hv : v ∈ candidateList m r c) (x : Board) :
    SolverCompletion (m.set r c v) x ↔ (SolverCompletion m x ∧ x r c = v) := by
  obtain ⟨hv1, hv9, hvalid⟩ := (mem_candidateList m r c v).1 hv
  have hvz : v ≠ 0 := by omega
  constructor
  · rintro ⟨hc, he, hn⟩
    have hx : x r c = v := by
      have := he r c (by rw [Board.set_same]; exact hvz)
      rwa [Board.set_same] at this
    have hext : Extends m x := by
      intro r' c' hz
      have hne : ¬(r' = r ∧ c' = c) := by
        rintro ⟨rfl, rfl⟩; exact hz h0
      have := he r' c' (by rwa [Board.set_other _ _ _ _ _ _ hne])
      rwa [Board.set_other _ _ _ _ _ _ hne] at this
    refine ⟨⟨hc, hext, ?_⟩, hx⟩
    intro r1 c1 hz
    by_cases he' : r1 = r ∧ c1 = c
    · obtain ⟨rfl, rfl⟩ := he'
      refine ⟨by omega, by omega, ?_⟩
      rw [noConflictAt_iff]
      refine ⟨by omega, ?_⟩
      intro r2 c2 hsame hne
      by_cases hz2 : m r2 c2 = 0
      · -- the peer is also a newly filled cell of m.set r1 c1 v
        have hsz : (m.set r1 c1 v) r2 c2 = 0 := by
          rwa [Board.set_other _ _ _ _ _ _ hne]
        obtain ⟨_, _, hnc2⟩ := hn r2 c2 hsz
        have hd := ((noConflictAt_iff x r2 c2).1 hnc2).2 r1 c1
          (sameUnit_symm hsame) (fun hc' => hne ⟨hc'.1.symm, hc'.2.symm⟩)
        exact fun hcontra => hd hcontra.symm
      · have hd := (isValidPlacement_true_iff m r1 c1 v).1 hvalid r2 c2 hsame
        rw [hext r2 c2 hz2, hx]
        exact hd
    · have hsz : (m.set r c v) r1 c1 = 0 := by
        rwa [Board.set_other _ _ _ _ _ _ he']
      exact hn r1 c1 hsz
  · rintro ⟨⟨hc, he, hn⟩, hx⟩
    refine ⟨hc, ?_, ?_⟩
    · intro r' c' hz
      by_cases he' : r' = r ∧ c' = c
      · obtain ⟨rfl, rfl⟩ := he'
        rw [Board.set_same]
        exact hx
      · rw [Board.set_other _ _ _ _ _ _ he'] at hz ⊢
        exact he r' c' hz
    · intro r' c' hz
      have hne : ¬(r' = r ∧ c' = c) := by
        rintro ⟨rfl, rfl⟩
        rw [Board.set_same] at hz
        exact hvz hz
      rw [Board.set_other _ _ _ _ _ _ hne] at hz
      exact hn r' c' hz

/-! ### Unfolding lemmas for the solver -/

theorem backtrack_leaf_eq (cnt : Bool) (fuel : Nat) (b : Board) (sols : Nat)
    (g : Rng) (h : selectCell b = none) :
    backtrackAux cnt fuel b sols g = (true, b, sols + 1, g) := by
  rw [backtrackAux, h]

theorem backtrack_node_eq (cnt : Bool) (f : Nat) (b : Board) (sols : Nat)
    (g : Rng) (rc : Fin 9 × Fin 9) (h : selectCell b = some rc) :
    backtrackAux cnt (f + 1) b sols g =
      tryCandsAux cnt (backtrackAux cnt f) rc.1 rc.2
        (shuffleInPlace (candidateList b rc.1 rc.2) g).1 b sols
        (shuffleInPlace (candidateList b rc.1 rc.2) g).2 := by
  rw [backtrackAux, h]

theorem backtrack_zero_node_eq (cnt : Bool) (b : Board) (sols : Nat)
    (g : Rng) (rc : Fin 9 × Fin 9) (h : selectCell b = some rc) :
    backtrackAux cnt 0 b sols g = (false, b, sols, g) := by
  rw [backtrackAux, h]

theorem viaP_cons_iff (m : Board) (r c : Fin 9) (v : Nat) (rest : List Nat)
    (hnov : ¬ ∃ x, SolverCompletion m x ∧ x r c = v) (x : Board) :
    ViaP m r c (v :: rest) x ↔ ViaP m r c rest x := by
  constructor
  · rintro ⟨hs, hm⟩
    rcases List.mem_cons.1 hm with he | hm'
    · exact absurd ⟨x, hs, he⟩ hnov
    · exact ⟨hs, hm'⟩
  · rintro ⟨hs, hm⟩
    exact ⟨hs, List.mem_cons_of_mem v hm⟩

theorem viaP_of_rest (m : Board) (r c : Fin 9) (v : Nat) (rest : List Nat)
    (x : Board) (h : ViaP m r c rest x) : ViaP m r c (v :: rest) x :=
  ⟨h.1, List.mem_cons_of_mem v h.2⟩

theorem back_count_leaf_case (fuel : Nat) (b : Board) (sols : Nat) (g : Rng)
    (ok : Bool) (b2 : Board) (sols2 : Nat) (g2 : Rng)
    (hsel : selectCell b = none) (hs : sols ≤ 1)
    (hE : backtrackAux true fuel b sols g = (ok, b2, sols2, g2)) :
    (ok = false → b2 = b ∧
      ((sols2 = sols ∧ ¬ HasC b) ∨ (sols = 0 ∧ sols2 = 1 ∧ UniqC b)))
    ∧ (ok = true →
      ((sols = 0 ∧ sols2 = 1 ∧ UniqC b ∧ b2 = b ∧ Complete b)
        ∨ (sols = 0 ∧ sols2 = 2 ∧ MultiC b)
        ∨ (sols = 1 ∧ sols2 = 2 ∧ HasC b))) := by
  rw [backtrack_leaf_eq true fuel b sols g hsel] at hE
  simp only [Prod.mk.injEq] at hE
  obtain ⟨rfl, rfl, rfl, rfl⟩ := hE
  have hc : Complete b := (selectCell_eq_none_iff b).1 hsel
  constructor
  · intro h
    exact Bool.noConfusion h
  · intro _
    interval_cases sols
    · exact Or.inl ⟨rfl, rfl, uniqC_of_complete b hc, rfl, hc⟩
    · exact Or.inr (Or.inr ⟨rfl, rfl, b, scomp_self_of_complete b hc⟩)

theorem try_count_inv (f : Nat) (hB : BackCountInv f) : TryCountInv f := by
  intro m r c cands
  induction cands with
  | nil =>
    intro sols g ok b2 sols2 g2 h0 hec hs hnd hmem htry
    simp only [tryCandsAux, Prod.mk.injEq] at htry
    obtain ⟨rfl, rfl, rfl, rfl⟩ := htry
    constructor
    · intro _
      refine ⟨rfl, Or.inl ⟨rfl, ?_⟩⟩
      rintro ⟨x, _, hxm⟩
      simp at hxm
    · intro h
      exact Bool.noConfusion h
  | cons v rest ih =>
    intro sols g ok b2 sols2 g2 h0 hec hs hnd hmem htry
    have hvmem : v ∈ candidateList m r c := hmem v (List.mem_cons_self v rest)
    have hv0 : v ≠ 0 := by
      have := (mem_candidateList m r c v).1 hvmem
      omega
    have hbridge := scomp_set_iff m r c v h0 hvmem
    rcases hE : backtrackAux true f (m.set r c v) sols g with ⟨ok1, b1, sols1, g1⟩
    have hecs : emptyCount (m.set r c v) ≤ f := by
      have := emptyCount_set_filled m r c v h0 hv0
      omega
    have hchild := hB (m.set r c v) sols g ok1 b1 sols1 g1 hecs hs hE
    simp only [tryCandsAux, hE, Bool.not_true, Bool.false_or] at htry
    by_cases habort : (ok1 && decide (1 < sols1)) = true
    · rw [if_pos habort] at htry
      simp only [Prod.mk.injEq] at htry
      obtain ⟨rfl, rfl, rfl, rfl⟩ := htry
      simp only [Bool.and_eq_true, decide_eq_true_eq] at habort
      obtain ⟨hok1, hsols1⟩ := habort
      rcases hchild.2 hok1 with ⟨_, h1, _⟩ | ⟨hs0, h2, hmul⟩ | ⟨hs1, h2, hhas⟩
      · omega
      · subst hs0
        constructor
        · intro hfalse
          rw [hok1] at hfalse
          exact Bool.noConfusion hfalse
        · intro _
          refine ⟨h2, ?_, ?_⟩
          · intro h10
            omega
          · intro _
            obtain ⟨x, y, hx, hy, hxy⟩ := hmul
            obtain ⟨hxm, hxv⟩ := (hbridge x).1 hx
            obtain ⟨hym, hyv⟩ := (hbridge y).1 hy
            exact ⟨x, y, ⟨hxm, by rw [hxv]; exact List.mem_cons_self v rest⟩,
              ⟨hym, by rw [hyv]; exact List.mem_cons_self v rest⟩, hxy⟩
      · subst hs1
        constructor
        · intro hfalse
          rw [hok1] at hfalse
          exact Bool.noConfusion hfalse
        · intro _
          refine ⟨h2, ?_, ?_⟩
          · intro _
            obtain ⟨x, hx⟩ := hhas
            obtain ⟨hxm, hxv⟩ := (hbridge x).1 hx
            exact ⟨x, hxm, by rw [hxv]; exact List.mem_cons_self v rest⟩
          · intro h01
            omega
    · rw [if_neg habort] at htry
      have hcont : b1 = m.set r c v ∧
          ((sols1 = sols ∧ ¬ HasC (m.set r c v))
            ∨ (sols = 0 ∧ sols1 = 1 ∧ UniqC (m.set r c v))) := by
        cases hok1 : ok1 with
        | false =>
          obtain ⟨hb1, hd⟩ := hchild.1 hok1
          exact ⟨hb1, hd⟩
        | true =>
          have hle : ¬ (1 < sols1) := by
            intro hlt
            apply habort
            simp [hok1, hlt]
          rcases hchild.2 hok1 with ⟨hs0, h1, hu, hb1, _⟩ | ⟨_, h2, _⟩ | ⟨_, h2, _⟩
          · exact ⟨hb1, Or.inr ⟨hs0, h1, hu⟩⟩
          · omega
          · omega
      obtain ⟨rfl, hdisj⟩ := hcont
      rw [set_zero_cancel m r c v h0] at htry
      have hndr : rest.Nodup := (List.nodup_cons.1 hnd).2
      have hvnotin : v ∉ rest := (List.nodup_cons.1 hnd).1
      have hmemr : ∀ w ∈ rest, w ∈ candidateList m r c :=
        fun w hw => hmem w (List.mem_cons_of_mem v hw)
      rcases hdisj with ⟨hseq, hnoc⟩ | ⟨hs0, hs1, huniq⟩
      · subst sols1
        have hnov : ¬ ∃ x, SolverCompletion m x ∧ x r c = v := by
          rintro ⟨x, hx, hxv⟩
          exact hnoc ⟨x, (hbridge x).2 ⟨hx, hxv⟩⟩
        have hres := ih sols g1 ok b2 sols2 g2 h0 hec hs hndr hmemr htry
        constructor
        · intro hok
          obtain ⟨hb2, hd⟩ := hres.1 hok
          refine ⟨hb2, ?_⟩
          rcases hd with ⟨hse, hnh⟩ | ⟨ha, hb, hex, huni⟩
          · refine Or.inl ⟨hse, ?_⟩
            rintro ⟨x, hx⟩
            exact hnh ⟨x, (viaP_cons_iff m r c v rest hnov x).1 hx⟩
          · refine Or.inr ⟨ha, hb, ?_, ?_⟩
            · obtain ⟨x, hx⟩ := hex
              exact ⟨x, viaP_of_rest m r c v rest x hx⟩
            · intro x y hx hy
              exact huni x y ((viaP_cons_iff m r c v rest hnov x).1 hx)
                ((viaP_cons_iff m r c v rest hnov y).1 hy)
        · intro hok
          obtain ⟨hs2, hh1, hh0⟩ := hres.2 hok
          refine ⟨hs2, ?_, ?_⟩
          · intro hs1e
            obtain ⟨x, hx⟩ := hh1 hs1e
            exact ⟨x, viaP_of_rest m r c v rest x hx⟩
          · intro hs0e
            obtain ⟨x, y, hx, hy, hxy⟩ := hh0 hs0e
            exact ⟨x, y, viaP_of_rest m r c v rest x hx,
              viaP_of_rest m r c v rest y hy, hxy⟩
      · subst hs0
        subst hs1
        obtain ⟨x0, hx0, hx0u⟩ := huniq
        obtain ⟨hx0m, hx0v⟩ := (hbridge x0).1 hx0
        have hx0cons : ViaP m r c (v :: rest) x0 :=
          ⟨hx0m, by rw [hx0v]; exact List.mem_cons_self v rest⟩
        have huniqv : ∀ y, SolverCompletion m y → y r c = v → y = x0 :=
          fun y hy hyv => hx0u y ((hbridge y).2 ⟨hy, hyv⟩)
        have hres := ih 1 g1 ok b2 sols2 g2 h0 hec (le_refl 1) hndr hmemr htry
        constructor
        · intro hok
          obtain ⟨hb2, hd⟩ := hres.1 hok
          rcases hd with ⟨hse, hnh⟩ | ⟨ha, _, _⟩
          · refine ⟨hb2, Or.inr ⟨rfl, hse, ⟨x0, hx0cons⟩, ?_⟩⟩
            intro x y hx hy
            have key : ∀ z, ViaP m r c (v :: rest) z → z = x0 := by
              rintro z ⟨hzm, hzmem⟩
              rcases List.mem_cons.1 hzmem with hzv | hzr
              · exact huniqv z hzm hzv
              · exact absurd ⟨z, hzm, hzr⟩ hnh
            rw [key x hx, key y hy]
          · omega
        · intro hok
          obtain ⟨hs2, hh1, _⟩ := hres.2 hok
          refine ⟨hs2, ?_, ?_⟩
          · intro h01
            omega
          · intro _
            obtain ⟨y, hym, hymem⟩ := hh1 rfl
            refine ⟨x0, y, hx0cons, viaP_of_rest m r c v rest y ⟨hym, hymem⟩, ?_⟩
            intro hxy
            rw [← hxy, hx0v] at hymem
            exact hvnotin hymem

theorem back_count_inv : ∀ f, BackCountInv f := by
  intro f
  induction f with
  | zero =>
    intro b sols g ok b2 sols2 g2 hec hs hE
    cases hsel : selectCell b with
    | none => exact back_count_leaf_case 0 b sols g ok b2 sols2 g2 hsel hs hE
    | some rc =>
      exfalso
      have h0 : b rc.1 rc.2 = 0 := selectCell_some_empty b rc hsel
      have := emptyCount_pos_of_empty_cell b rc.1 rc.2 h0
      omega
  | succ f ihf =>
    have hT := try_count_inv f ihf
    intro b sols g ok b2 sols2 g2 hec hs hE
    cases hsel : selectCell b with
    | none => exact back_count_leaf_case (f + 1) b sols g ok b2 sols2 g2 hsel hs hE
    | some rc =>
      rw [backtrack_node_eq true f b sols g rc hsel] at hE
      have h0 : b rc.1 rc.2 = 0 := selectCell_some_empty b rc hsel
      have hnd : (shuffleInPlace (candidateList b rc.1 rc.2) g).1.Nodup :=
        shuffleInPlace_nodup _ g (candidateList_nodup b rc.1 rc.2)
      have hmem : ∀ v ∈ (shuffleInPlace (candidateList b rc.1 rc.2) g).1,
          v ∈ candidateList b rc.1 rc.2 :=
        fun v hv => (shuffleInPlace_mem _ g v).1 hv
      have hres := hT b rc.1 rc.2 (shuffleInPlace (candidateList b rc.1 rc.2) g).1
        sols (shuffleInPlace (candidateList b rc.1 rc.2) g).2 ok b2 sols2 g2
        h0 hec hs hnd hmem hE
      have hall : ∀ x, SolverCompletion b x →
          x rc.1 rc.2 ∈ (shuffleInPlace (candidateList b rc.1 rc.2) g).1 := by
        intro x hx
        exact (shuffleInPlace_mem _ g _).2
          (mem_candidate_of_scomp b x hx rc.1 rc.2 h0)
      constructor
      · intro hok
        obtain ⟨hb2, hd⟩ := hres.1 hok
        refine ⟨hb2, ?_⟩
        rcases hd with ⟨hse, hnh⟩ | ⟨ha, hb', hex, huni⟩
        · refine Or.inl ⟨hse, ?_⟩
          rintro ⟨x, hx⟩
          exact hnh ⟨x, hx, hall x hx⟩
        · refine Or.inr ⟨ha, hb', ?_⟩
          obtain ⟨x, hx, hxm⟩ := hex
          exact ⟨x, hx, fun y hy => huni y x ⟨hy, hall y hy⟩ ⟨hx, hxm⟩⟩
      · intro hok
        obtain ⟨hs2, hh1, hh0⟩ := hres.2 hok
        interval_cases sols
        · refine Or.inr (Or.inl ⟨rfl, hs2, ?_⟩)
          obtain ⟨x, y, hx, hy, hxy⟩ := hh0 rfl
          exact ⟨x, y, hx.1, hy.1, hxy⟩
        · refine Or.inr (Or.inr ⟨rfl, hs2, ?_⟩)
          obtain ⟨x, hx⟩ := hh1 rfl
          exact ⟨x, hx.1⟩

theorem hasC_of_uniqC (b : Board) (h : UniqC b) : HasC b := by
  obtain ⟨x, hx, _⟩ := h
  exact ⟨x, hx⟩

theorem hasC_of_multiC (b : Board) (h : MultiC b) : HasC b := by
  obtain ⟨x, _, hx, _, _⟩ := h
  exact ⟨x, hx⟩

theorem uniqC_multiC_false (b : Board) (hu : UniqC b) (hm : MultiC b) :
    False := by
  obtain ⟨z, _, hz⟩ := hu
  obtain ⟨x, y, hx, hy, hxy⟩ := hm
  exact hxy ((hz x hx).trans (hz y hy).symm)

/-- The full specification of count mode, used throughout the carving
proofs: the returned count is the number of reachable completions capped
at 2, and solved mirrors count > 0. -/
theorem solve_count_spec (board : Board) (g : Rng) :
    ∃ n, (solve board true g).1.1.solutions = some n ∧
      n ≤ 2 ∧
      ((solve board true g).1.1.solved = true ↔ 0 < n) ∧
      (n = 0 ↔ ¬ HasC board) ∧
      (n = 1 ↔ UniqC board) ∧
      (n = 2 ↔ MultiC board) := by
  rcases hE : backtrackAux true 81 board 0 g with ⟨ok, b2, sols2, g2⟩
  have hres := back_count_inv 81 board 0 g ok b2 sols2 g2
    (emptyCount_le board) (by omega) hE
  refine ⟨sols2, ?_, ?_⟩
  · simp [solve, hE]
  have hfacts : (sols2 = 0 ∧ ¬ HasC board) ∨ (sols2 = 1 ∧ UniqC board)
      ∨ (sols2 = 2 ∧ MultiC board) := by
    cases hok : ok with
    | false =>
      rcases (hres.1 hok).2 with ⟨h1, h2⟩ | ⟨_, h1, h2⟩
      · exact Or.inl ⟨h1, h2⟩
      · exact Or.inr (Or.inl ⟨h1, h2⟩)
    | true =>
      rcases hres.2 hok with ⟨_, h1, h2, _⟩ | ⟨_, h1, h2⟩ | ⟨h0, _, _⟩
      · exact Or.inr (Or.inl ⟨h1, h2⟩)
      · exact Or.inr (Or.inr ⟨h1, h2⟩)
      · exact absurd h0 (by omega)
  have hsolved : (solve board true g).1.1.solved = decide (0 < sols2) := by
    simp [solve, hE]
  rcases hfacts with ⟨h1, h2⟩ | ⟨h1, h2⟩ | ⟨h1, h2⟩ <;> subst h1
  · refine ⟨by omega, by rw [hsolved]; simp, ?_, ?_, ?_⟩
    · exact ⟨fun _ => h2, fun _ => rfl⟩
    · exact ⟨fun h => absurd h (by omega),
        fun hu => absurd (hasC_of_uniqC board hu) h2⟩
    · exact ⟨fun h => absurd h (by omega),
        fun hm => absurd (hasC_of_multiC board hm) h2⟩
  · refine ⟨by omega, by rw [hsolved]; simp, ?_, ?_, ?_⟩
    · exact ⟨fun h => absurd h (by omega),
        fun hn => absurd (hasC_of_uniqC board h2) hn⟩
    · exact ⟨fun _ => h2, fun _ => rfl⟩
    · exact ⟨fun h => absurd h (by omega),
        fun hm => absurd (uniqC_multiC_false board h2 hm) not_false⟩
  · refine ⟨by omega, by rw [hsolved]; simp, ?_, ?_, ?_⟩
    · exact ⟨fun h => absurd h (by omega),
        fun hn => absurd (hasC_of_multiC board h2) hn⟩
    · exact ⟨fun h => absurd h (by omega),
        fun hu => absurd (uniqC_multiC_false board hu h2) not_false⟩
    · exact ⟨fun _ => h2, fun _ => rfl⟩

theorem back_solve_leaf_case (fuel : Nat) (b : Board) (sols : Nat) (g : Rng)
    (ok : Bool) (b2 : Board) (sols2 : Nat) (g2 : Rng)
    (hsel : selectCell b = none)
    (hE : backtrackAux false fuel b sols g = (ok, b2, sols2, g2)) :
    (ok = true → SolverCompletion b b2)
    ∧ (ok = false → b2 = b ∧ ¬ HasC b) := by
  rw [backtrack_leaf_eq false fuel b sols g hsel] at hE
  simp only [Prod.mk.injEq] at hE
  obtain ⟨rfl, rfl, rfl, rfl⟩ := hE
  have hc : Complete b := (selectCell_eq_none_iff b).1 hsel
  exact ⟨fun _ => scomp_self_of_complete b hc, fun h => Bool.noConfusion h⟩

theorem try_solve_inv (f : Nat) (hB : BackSolveInv f) : TrySolveInv f := by
  intro m r c cands
  induction cands with
  | nil =>
    intro sols g ok b2 sols2 g2 h0 hec hmem htry
    simp only [tryCandsAux, Prod.mk.injEq] at htry
    obtain ⟨rfl, rfl, rfl, rfl⟩ := htry
    refine ⟨fun h => Bool.noConfusion h, fun _ => ⟨rfl, ?_⟩⟩
    rintro ⟨x, _, hxm⟩
    simp at hxm
  | cons v rest ih =>
    intro sols g ok b2 sols2 g2 h0 hec hmem htry
    have hvmem : v ∈ candidateList m r c := hmem v (List.mem_cons_self v rest)
    have hv0 : v ≠ 0 := by
      have := (mem_candidateList m r c v).1 hvmem
      omega
    have hbridge := scomp_set_iff m r c v h0 hvmem
    rcases hE : backtrackAux false f (m.set r c v) sols g with ⟨ok1, b1, sols1, g1⟩
    have hecs : emptyCount (m.set r c v) ≤ f := by
      have := emptyCount_set_filled m r c v h0 hv0
      omega
    have hchild := hB (m.set r c v) sols g ok1 b1 sols1 g1 hecs hE
    simp only [tryCandsAux, hE, Bool.not_false, Bool.true_or, Bool.and_true] at htry
    cases hok1 : ok1 with
    | true =>
      rw [hok1, if_pos rfl] at htry
      simp only [Prod.mk.injEq] at htry
      obtain ⟨rfl, rfl, rfl, rfl⟩ := htry
      refine ⟨fun _ => ?_, fun h => Bool.noConfusion h⟩
      exact ((hbridge b1).1 (hchild.1 hok1)).1
    | false =>
      rw [hok1] at htry
      simp only [Bool.false_eq_true, if_false] at htry
      obtain ⟨hb1, hnoc⟩ := hchild.2 hok1
      subst hb1
      rw [set_zero_cancel m r c v h0] at htry
      have hmemr : ∀ w ∈ rest, w ∈ candidateList m r c :=
        fun w hw => hmem w (List.mem_cons_of_mem v hw)
      have hres := ih sols1 g1 ok b2 sols2 g2 h0 hec hmemr htry
      refine ⟨hres.1, fun hok => ?_⟩
      obtain ⟨hb2, hnh⟩ := hres.2 hok
      refine ⟨hb2, ?_⟩
      have hnov : ¬ ∃ x, SolverCompletion m x ∧ x r c = v := by
        rintro ⟨x, hx, hxv⟩
        exact hnoc ⟨x, (hbridge x).2 ⟨hx, hxv⟩⟩
      rintro ⟨x, hx⟩
      exact hnh ⟨x, (viaP_cons_iff m r c v rest hnov x).1 hx⟩

theorem back_solve_inv : ∀ f, BackSolveInv f := by
  intro f
  induction f with
  | zero =>
    intro b sols g ok b2 sols2 g2 hec hE
    cases hsel : selectCell b with
    | none => exact back_solve_leaf_case 0 b sols g ok b2 sols2 g2 hsel hE
    | some rc =>
      exfalso
      have h0 : b rc.1 rc.2 = 0 := selectCell_some_empty b rc hsel
      have := emptyCount_pos_of_empty_cell b rc.1 rc.2 h0
      omega
  | succ f ihf =>
    have hT := try_solve_inv f ihf
    intro b sols g ok b2 sols2 g2 hec hE
    cases hsel : selectCell b with
    | none => exact back_solve_leaf_case (f + 1) b sols g ok b2 sols2 g2 hsel hE
    | some rc =>
      rw [backtrack_node_eq false f b sols g rc hsel] at hE
      have h0 : b rc.1 rc.2 = 0 := selectCell_some_empty b rc hsel
      have hmem : ∀ v ∈ (shuffleInPlace (candidateList b rc.1 rc.2) g).1,
          v ∈ candidateList b rc.1 rc.2 :=
        fun v hv => (shuffleInPlace_mem _ g v).1 hv
      have hres := hT b rc.1 rc.2 (shuffleInPlace (candidateList b rc.1 rc.2) g).1
        sols (shuffleInPlace (candidateList b rc.1 rc.2) g).2 ok b2 sols2 g2
        h0 hec hmem hE
      refine ⟨hres.1, fun hok => ?_⟩
      obtain ⟨hb2, hnh⟩ := hres.2 hok
      refine ⟨hb2, ?_⟩
      rintro ⟨x, hx⟩
      refine hnh ⟨x, hx, ?_⟩
      exact (shuffleInPlace_mem _ g _).2 (mem_candidate_of_scomp b x hx rc.1 rc.2 h0)

/-! ### Claim C4: mutation contract of solve -/

/-- C4: solve mutates the caller's grid only on a successful
first-solution run.  In count mode the caller's grid is returned
untouched; in first-solution mode a false result returns the grid
untouched, and a true result returns the grid overwritten with a full
assignment extending the input (the solved values). -/
theorem C4_solve_frame (board : Board) (g : Rng) :
    ((solve board true g).1.2 = board)
    ∧ ((solve board false g).1.1.solved = false →
        (solve board false g).1.2 = board)
    ∧ ((solve board false g).1.1.solved = true →
        Complete ((solve board false g).1.2)
          ∧ Extends board ((solve board false g).1.2)
          ∧ SolverCompletion board ((solve board false g).1.2)) := by
  refine ⟨by simp [solve], ?_⟩
  rcases hE : backtrackAux false 81 board 0 g with ⟨ok, b2, sols2, g2⟩
  have hres := back_solve_inv 81 board 0 g ok b2 sols2 g2 (emptyCount_le board) hE
  cases hok : ok with
  | true =>
    have hs : SolverCompletion board b2 := hres.1 hok
    constructor
    · intro hfalse
      simp [solve, hE, hok] at hfalse
    · intro _
      have hout : (solve board false g).1.2 = b2 := by
        simp [solve, hE, hok]
      rw [hout]
      exact ⟨hs.1, hs.2.1, hs⟩
  | false =>
    constructor
    · intro _
      simp [solve, hE, hok]
    · intro htrue
      simp [solve, hE, hok] at htrue

/-! ### Claim C2: count mode of solve -/

/-- C2: in count mode solve does not stop at the first full assignment:
it keeps searching for a second solution (a board with two distinct
reachable completions reports 2, not 1) and aborts the search as soon as
the counter exceeds one, so the returned count never exceeds 2; when the
search space is exhausted first, the returned solutions field is the
final counter value, 0 exactly for no completion and 1 exactly for a
unique completion; and solved is true exactly when solutions > 0. -/
theorem C2_solve_count_mode (board : Board) (g : Rng) :
    ∃ n, (solve board true g).1.1.solutions = some n ∧
      n ≤ 2 ∧
      ((solve board true g).1.1.solved = true ↔ 0 < n) ∧
      (n = 0 ↔ ¬ HasC board) ∧
      (n = 1 ↔ UniqC board) ∧
      (n = 2 ↔ MultiC board) :=
  solve_count_spec board g

theorem firstEmpty_eq_none_iff (b : Board) :
    firstEmpty b = none ↔ Complete b := by
  unfold firstEmpty
  rw [List.find?_eq_none]
  constructor
  · intro h r c
    have := h (r, c) (mem_allCells (r, c))
    simpa using this
  · intro h rc _
    simpa using h rc.1 rc.2

theorem firstEmpty_some (b : Board) (rc : Fin 9 × Fin 9)
    (h : firstEmpty b = some rc) : b rc.1 rc.2 = 0 := by
  have := List.find?_some h
  simpa using this

theorem fill_leaf_eq (fuel : Nat) (b : Board) (g : Rng)
    (h : firstEmpty b = none) : fillBoardAux fuel b g = (true, b, g) := by
  rw [fillBoardAux, h]

theorem fill_node_eq (f : Nat) (b : Board) (g : Rng) (rc : Fin 9 × Fin 9)
    (h : firstEmpty b = some rc) :
    fillBoardAux (f + 1) b g =
      fillTryAux (fillBoardAux f) rc.1 rc.2
        (shuffleInPlace [1, 2, 3, 4, 5, 6, 7, 8, 9] g).1 b
        (shuffleInPlace [1, 2, 3, 4, 5, 6, 7, 8, 9] g).2 := by
  rw [fillBoardAux, h]

theorem fill_try_inv (f : Nat) (hB : FillInv f) : FillTryInv f := by
  intro m r c cands
  induction cands with
  | nil =>
    intro g ok b2 g2 h0 hec hvals htry
    simp only [fillTryAux, Prod.mk.injEq] at htry
    obtain ⟨rfl, rfl, rfl⟩ := htry
    refine ⟨fun h => Bool.noConfusion h, fun _ => ⟨rfl, ?_⟩⟩
    rintro ⟨x, _, hxm⟩
    simp at hxm
  | cons v rest ih =>
    intro g ok b2 g2 h0 hec hvals htry
    have hvr : 1 ≤ v ∧ v ≤ 9 := hvals v (List.mem_cons_self v rest)
    have hvalsr : ∀ w ∈ rest, 1 ≤ w ∧ w ≤ 9 :=
      fun w hw => hvals w (List.mem_cons_of_mem v hw)
    by_cases hvalid : isValidPlacement m r c v = true
    · have hvmem : v ∈ candidateList m r c :=
        (mem_candidateList m r c v).2 ⟨hvr.1, hvr.2, hvalid⟩
      have hv0 : v ≠ 0 := by omega
      have hbridge := scomp_set_iff m r c v h0 hvmem
      rcases hE : fillBoardAux f (m.set r c v) g with ⟨ok1, b1, g1⟩
      have hecs : emptyCount (m.set r c v) ≤ f := by
        have := emptyCount_set_filled m r c v h0 hv0
        omega
      have hchild := hB (m.set r c v) g ok1 b1 g1 hecs hE
      simp only [fillTryAux, hvalid, if_true, hE] at htry
      cases hok1 : ok1 with
      | true =>
        rw [hok1, if_pos rfl] at htry
        simp only [Prod.mk.injEq] at htry
        obtain ⟨rfl, rfl, rfl⟩ := htry
        refine ⟨fun _ => ((hbridge b1).1 (hchild.1 hok1)).1,
          fun h => Bool.noConfusion h⟩
      | false =>
        rw [hok1] at htry
        simp only [Bool.false_eq_true, if_false] at htry
        obtain ⟨hb1, hnoc⟩ := hchild.2 hok1
        subst hb1
        rw [set_zero_cancel m r c v h0] at htry
        have hres := ih g1 ok b2 g2 h0 hec hvalsr htry
        refine ⟨hres.1, fun hok => ?_⟩
        obtain ⟨hb2, hnh⟩ := hres.2 hok
        refine ⟨hb2, ?_⟩
        have hnov : ¬ ∃ x, SolverCompletion m x ∧ x r c = v := by
          rintro ⟨x, hx, hxv⟩
          exact hnoc ⟨x, (hbridge x).2 ⟨hx, hxv⟩⟩
        rintro ⟨x, hx⟩
        exact hnh ⟨x, (viaP_cons_iff m r c v rest hnov x).1 hx⟩
    · simp only [fillTryAux, hvalid, if_false] at htry
      have hres := ih g ok b2 g2 h0 hec hvalsr htry
      refine ⟨hres.1, fun hok => ?_⟩
      obtain ⟨hb2, hnh⟩ := hres.2 hok
      refine ⟨hb2, ?_⟩
      rintro ⟨x, hxs, hxm⟩
      rcases List.mem_cons.1 hxm with hxv | hxr
      · apply hvalid
        rw [← hxv]
        exact isValid_of_scomp m x hxs r c h0
      · exact hnh ⟨x, hxs, hxr⟩

theorem fill_inv : ∀ f, FillInv f := by
  intro f
  induction f with
  | zero =>
    intro b g ok b2 g2 hec hE
    cases hsel : firstEmpty b with
    | none =>
      rw [fill_leaf_eq 0 b g hsel] at hE
      simp only [Prod.mk.injEq] at hE
      obtain ⟨rfl, rfl, rfl⟩ := hE
      exact ⟨fun _ => scomp_self_of_complete b ((firstEmpty_eq_none_iff b).1 hsel),
        fun h => Bool.noConfusion h⟩
    | some rc =>
      exfalso
      have h0 : b rc.1 rc.2 = 0 := firstEmpty_some b rc hsel
      have := emptyCount_pos_of_empty_cell b rc.1 rc.2 h0
      omega
  | succ f ihf =>
    have hT := fill_try_inv f ihf
    intro b g ok b2 g2 hec hE
    cases hsel : firstEmpty b with
    | none =>
      rw [fill_leaf_eq (f + 1) b g hsel] at hE
      simp only [Prod.mk.injEq] at hE
      obtain ⟨rfl, rfl, rfl⟩ := hE
      exact ⟨fun _ => scomp_self_of_complete b ((firstEmpty_eq_none_iff b).1 hsel),
        fun h => Bool.noConfusion h⟩
    | some rc =>
      rw [fill_node_eq f b g rc hsel] at hE
      have h0 : b rc.1 rc.2 = 0 := firstEmpty_some b rc hsel
      have hvals : ∀ v ∈ (shuffleInPlace [1, 2, 3, 4, 5, 6, 7, 8, 9] g).1,
          1 ≤ v ∧ v ≤ 9 := by
        intro v hv
        have := (shuffleInPlace_mem _ g v).1 hv
        simp only [List.mem_cons, List.not_mem_nil, or_false] at this
        omega
      have hres := hT b rc.1 rc.2 (shuffleInPlace [1, 2, 3, 4, 5, 6, 7, 8, 9] g).1
        (shuffleInPlace [1, 2, 3, 4, 5, 6, 7, 8, 9] g).2 ok b2 g2 h0 hec hvals hE
      refine ⟨hres.1, fun hok => ?_⟩
      obtain ⟨hb2, hnh⟩ := hres.2 hok
      refine ⟨hb2, ?_⟩
      rintro ⟨x, hx⟩
      refine hnh ⟨x, hx, ?_⟩
      apply (shuffleInPlace_mem _ g _).2
      have h19 := (hx.2.2 rc.1 rc.2 h0).1
      have h99 := (hx.2.2 rc.1 rc.2 h0).2.1
      simp only [List.mem_cons, List.not_mem_nil, or_false]
      omega

theorem G0_legal : LegalCompletion emptyBoard G0 := by decide

theorem scomp_of_legal (b x : Board) (h : LegalCompletion b x) :
    SolverCompletion b x :=
  ⟨h.1, h.2.1, fun r c _ => h.2.2 r c⟩

theorem scomp_empty_legal (x : Board) (h : SolverCompletion emptyBoard x) :
    LegalCompletion emptyBoard x :=
  ⟨h.1, h.2.1, fun r c => h.2.2 r c rfl⟩

theorem emptyBoard_hasC : HasC emptyBoard :=
  ⟨G0, scomp_of_legal emptyBoard G0 G0_legal⟩

/-- fillBoard always succeeds on the empty board, and its result is a
complete legal grid. -/
theorem fillBoard_empty_succeeds (g : Rng) :
    (fillBoard emptyBoard g).1 = true ∧
      LegalCompletion emptyBoard (fillBoard emptyBoard g).2.1 := by
  rcases hE : fillBoardAux 81 emptyBoard g with ⟨ok, b2, g2⟩
  have hres := fill_inv 81 emptyBoard g ok b2 g2 (emptyCount_le emptyBoard) hE
  have hfb : fillBoard emptyBoard g = (ok, b2, g2) := hE
  cases hok : ok with
  | false =>
    exact absurd emptyBoard_hasC (hres.2 hok).2
  | true =>
    rw [hfb]
    exact ⟨hok, scomp_empty_legal b2 (hres.1 hok)⟩

theorem extends_refl (b : Board) : Extends b b := fun _ _ _ => rfl

/-- A legal full grid is a legal completion of anything it extends. -/
theorem legal_completion_of_extends (sol b : Board)
    (hleg : LegalCompletion emptyBoard sol) (hext : Extends b sol) :
    LegalCompletion b sol :=
  ⟨hleg.1, hext, hleg.2.2⟩

theorem scomp_of_legal_extends (sol b : Board)
    (hleg : LegalCompletion emptyBoard sol) (hext : Extends b sol) :
    SolverCompletion b sol :=
  scomp_of_legal b sol (legal_completion_of_extends sol b hleg hext)

theorem extends_set_zero (b sol : Board) (r c : Fin 9)
    (hext : Extends b sol) : Extends (b.set r c 0) sol := by
  intro r' c' hz
  by_cases he : r' = r ∧ c' = c
  · obtain ⟨rfl, rfl⟩ := he
    rw [Board.set_same] at hz
    exact absurd rfl hz
  · rw [Board.set_other _ _ _ _ _ _ he] at hz ⊢
    exact hext r' c' hz

theorem carveLoop_stop (b : Board) (cells : List Nat)
    (target attempts maxA : Nat) (g : Rng)
    (h : ¬(cells ≠ [] ∧ target < countFilled b ∧ attempts < maxA * 81)) :
    carveLoop b cells target attempts maxA g = (b, attempts, g) := by
  rw [carveLoop, dif_neg h]

theorem carveLoop_step (b : Board) (cells : List Nat)
    (target attempts maxA : Nat) (g : Rng)
    (h : cells ≠ [] ∧ target < countFilled b ∧ attempts < maxA * 81) :
    carveLoop b cells target attempts maxA g =
      carveLoop
        (if (solve (b.set (rIdx (cells.getLast h.1)) (cIdx (cells.getLast h.1)) 0)
              true g).1.1.solutions = some 1
         then b.set (rIdx (cells.getLast h.1)) (cIdx (cells.getLast h.1)) 0
         else (b.set (rIdx (cells.getLast h.1)) (cIdx (cells.getLast h.1)) 0).set
           (rIdx (cells.getLast h.1)) (cIdx (cells.getLast h.1))
           (b (rIdx (cells.getLast h.1)) (cIdx (cells.getLast h.1))))
        cells.dropLast target (attempts + 1) maxA
        (solve (b.set (rIdx (cells.getLast h.1)) (cIdx (cells.getLast h.1)) 0)
          true g).2 := by
  rw [carveLoop, dif_pos h]

/-- The carving loop preserves: the solution grid still extends the
board, the board still has a unique reachable completion, and the filled
count never drops below the target (or below its initial value if that
was already at or under the target). -/
theorem carveLoop_main (sol : Board) :
    ∀ (n : Nat) (cells : List Nat), cells.length = n →
    ∀ (b : Board) (target attempts maxA : Nat) (g : Rng),
      Extends b sol → UniqC b →
      Extends (carveLoop b cells target attempts maxA g).1 sol
      ∧ UniqC (carveLoop b cells target attempts maxA g).1
      ∧ min (countFilled b) target
          ≤ countFilled (carveLoop b cells target attempts maxA g).1 := by
  intro n
  induction n with
  | zero =>
    intro cells hlen b target attempts maxA g hext huniq
    have hcells : cells = [] := List.length_eq_zero.1 hlen
    subst hcells
    rw [carveLoop_stop b [] target attempts maxA g (by simp)]
    exact ⟨hext, huniq, Nat.min_le_left _ _⟩
  | succ n ihn =>
    intro cells hlen b target attempts maxA g hext huniq
    by_cases hcond : cells ≠ [] ∧ target < countFilled b ∧ attempts < maxA * 81
    · rw [carveLoop_step b cells target attempts maxA g hcond]
      have hlend : cells.dropLast.length = n := by
        rw [List.length_dropLast, hlen]
        omega
      have hminb : min (countFilled b) target = target :=
        Nat.min_eq_right (le_of_lt hcond.2.1)
      by_cases hacc : (solve (b.set (rIdx (cells.getLast hcond.1))
          (cIdx (cells.getLast hcond.1)) 0) true g).1.1.solutions = some 1
      · rw [if_pos hacc]
        have hext1 : Extends (b.set (rIdx (cells.getLast hcond.1))
            (cIdx (cells.getLast hcond.1)) 0) sol := extends_set_zero b sol _ _ hext
        have huniq1 : UniqC (b.set (rIdx (cells.getLast hcond.1))
            (cIdx (cells.getLast hcond.1)) 0) := by
          obtain ⟨nn, hn, _, _, _, hn1, _⟩ := solve_count_spec
            (b.set (rIdx (cells.getLast hcond.1)) (cIdx (cells.getLast hcond.1)) 0) g
          rw [hacc] at hn
          have : nn = 1 := by
            injection hn.symm
          exact hn1.1 this
        have hcnt1 : target ≤ countFilled (b.set (rIdx (cells.getLast hcond.1))
            (cIdx (cells.getLast hcond.1)) 0) := by
          by_cases hz : b (rIdx (cells.getLast hcond.1)) (cIdx (cells.getLast hcond.1)) = 0
          · rw [Board.set_id b _ _ 0 hz]
            exact le_of_lt hcond.2.1
          · have := countFilled_set_zero b (rIdx (cells.getLast hcond.1))
              (cIdx (cells.getLast hcond.1)) hz
            omega
        obtain ⟨ha, hb', hc'⟩ := ihn cells.dropLast hlend _ target (attempts + 1)
          maxA _ hext1 huniq1
        refine ⟨ha, hb', ?_⟩
        rw [hminb]
        calc target
            = min (countFilled (b.set (rIdx (cells.getLast hcond.1))
                (cIdx (cells.getLast hcond.1)) 0)) target :=
              (Nat.min_eq_right hcnt1).symm
          _ ≤ _ := hc'
      · rw [if_neg hacc, Board.set_zero_set_back]
        obtain ⟨ha, hb', hc'⟩ := ihn cells.dropLast hlend b target (attempts + 1)
          maxA _ hext huniq
        exact ⟨ha, hb', hc'⟩
    · rw [carveLoop_stop b cells target attempts maxA g hcond]
      exact ⟨hext, huniq, Nat.min_le_left _ _⟩

/-- Each loop iteration consumes one position of the removal order and
one attempt, so the attempts consumed never exceed the length of the
removal order. -/
theorem carveLoop_attempts :
    ∀ (n : Nat) (cells : List Nat), cells.length = n →
    ∀ (b : Board) (target attempts maxA : Nat) (g : Rng),
      (carveLoop b cells target attempts maxA g).2.1
        ≤ attempts + cells.length := by
  intro n
  induction n with
  | zero =>
    intro cells hlen b target attempts maxA g
    have hcells : cells = [] := List.length_eq_zero.1 hlen
    subst hcells
    rw [carveLoop_stop b [] target attempts maxA g (by simp)]
    simp
  | succ n ihn =>
    intro cells hlen b target attempts maxA g
    by_cases hcond : cells ≠ [] ∧ target < countFilled b ∧ attempts < maxA * 81
    · rw [carveLoop_step b cells target attempts maxA g hcond]
      have hlend : cells.dropLast.length = n := by
        rw [List.length_dropLast, hlen]
        omega
      have := ihn cells.dropLast hlend
        (if (solve (b.set (rIdx (cells.getLast hcond.1))
              (cIdx (cells.getLast hcond.1)) 0) true g).1.1.solutions = some 1
         then b.set (rIdx (cells.getLast hcond.1)) (cIdx (cells.getLast hcond.1)) 0
         else (b.set (rIdx (cells.getLast hcond.1))
             (cIdx (cells.getLast hcond.1)) 0).set
           (rIdx (cells.getLast hcond.1)) (cIdx (cells.getLast hcond.1))
           (b (rIdx (cells.getLast hcond.1)) (cIdx (cells.getLast hcond.1))))
        target (attempts + 1) maxA
        (solve (b.set (rIdx (cells.getLast hcond.1))
          (cIdx (cells.getLast hcond.1)) 0) true g).2
      rw [hlend] at this
      rw [hlen]
      omega
    · rw [carveLoop_stop b cells target attempts maxA g hcond]
      simp

/-- As long as the attempt budget covers the length of the removal order,
its exact value does not influence the loop: the budget check never
fires. -/
theorem carveLoop_budget :
    ∀ (n : Nat) (cells : List Nat), cells.length = n →
    ∀ (b : Board) (target attempts maxA maxB : Nat) (g : Rng),
      attempts + cells.length ≤ maxA * 81 →
      attempts + cells.length ≤ maxB * 81 →
      carveLoop b cells target attempts maxA g
        = carveLoop b cells target attempts maxB g := by
  intro n
  induction n with
  | zero =>
    intro cells hlen b target attempts maxA maxB g hA hB
    have hcells : cells = [] := List.length_eq_zero.1 hlen
    subst hcells
    rw [carveLoop_stop b [] target attempts maxA g (by simp),
      carveLoop_stop b [] target attempts maxB g (by simp)]
  | succ n ihn =>
    intro cells hlen b target attempts maxA maxB g hA hB
    have hne : cells ≠ [] := by
      intro hc
      rw [hc] at hlen
      simp at hlen
    have hlp : 1 ≤ cells.length := by
      rw [hlen]
      omega
    by_cases hcnt : target < countFilled b
    · have hcondA : cells ≠ [] ∧ target < countFilled b ∧ attempts < maxA * 81 :=
        ⟨hne, hcnt, by omega⟩
      have hcondB : cells ≠ [] ∧ target < countFilled b ∧ attempts < maxB * 81 :=
        ⟨hne, hcnt, by omega⟩
      rw [carveLoop_step b cells target attempts maxA g hcondA,
        carveLoop_step b cells target attempts maxB g hcondB]
      have hlend : cells.dropLast.length = n := by
        rw [List.length_dropLast, hlen]
        omega
      apply ihn cells.dropLast hlend
      · rw [hlend]
        omega
      · rw [hlend]
        omega
    · rw [carveLoop_stop b cells target attempts maxA g (by tauto),
        carveLoop_stop b cells target attempts maxB g (by tauto)]

theorem config_min_le_max (d : DifficultyLevel) :
    (DIFFICULTY_CONFIG d).minGiven ≤ (DIFFICULTY_CONFIG d).maxGiven := by
  cases d <;> decide

theorem config_max_le_81 (d : DifficultyLevel) :
    (DIFFICULTY_CONFIG d).maxGiven ≤ 81 := by
  cases d <;> decide

/-- The carving facts every claim about generatePuzzle rests on: the
solution grid is a complete legal grid, it still extends the carved
puzzle, the puzzle has a unique reachable completion, and the carved
given-count never drops below the chosen target. -/
theorem generatePuzzle_core (d : DifficultyLevel) (g : Rng) :
    LegalCompletion emptyBoard (generatePuzzle d g).1.solution
    ∧ Extends (generatePuzzle d g).1.puzzle (generatePuzzle d g).1.solution
    ∧ UniqC (generatePuzzle d g).1.puzzle
    ∧ (randInt (DIFFICULTY_CONFIG d).minGiven (DIFFICULTY_CONFIG d).maxGiven
        (fillBoard emptyBoard g).2.2).1
      ≤ countFilled (generatePuzzle d g).1.puzzle := by
  obtain ⟨hok, hlegal⟩ := fillBoard_empty_succeeds g
  have hcomp : Complete (fillBoard emptyBoard g).2.1 := hlegal.1
  have hcf : countFilled (fillBoard emptyBoard g).2.1 = 81 :=
    countFilled_complete _ hcomp
  have htb := randInt_bounds (DIFFICULTY_CONFIG d).minGiven
    (DIFFICULTY_CONFIG d).maxGiven (fillBoard emptyBoard g).2.2
    (config_min_le_max d)
  have hpz : (generatePuzzle d g).1.puzzle =
      (carveLoop (fillBoard emptyBoard g).2.1
        (shuffleInPlace (List.range 81)
          (randInt (DIFFICULTY_CONFIG d).minGiven (DIFFICULTY_CONFIG d).maxGiven
            (fillBoard emptyBoard g).2.2).2).1
        (randInt (DIFFICULTY_CONFIG d).minGiven (DIFFICULTY_CONFIG d).maxGiven
          (fillBoard emptyBoard g).2.2).1
        0 (DIFFICULTY_CONFIG d).maxAttempts
        (shuffleInPlace (List.range 81)
          (randInt (DIFFICULTY_CONFIG d).minGiven (DIFFICULTY_CONFIG d).maxGiven
            (fillBoard emptyBoard g).2.2).2).2).1 := by
    simp only [generatePuzzle, carvePuzzle, cloneBoard]
  have hsol : (generatePuzzle d g).1.solution = (fillBoard emptyBoard g).2.1 := by
    simp only [generatePuzzle, cloneBoard]
  obtain ⟨hext, huniq, hcount⟩ := carveLoop_main (fillBoard emptyBoard g).2.1 _ _ rfl
    (fillBoard emptyBoard g).2.1
    (randInt (DIFFICULTY_CONFIG d).minGiven (DIFFICULTY_CONFIG d).maxGiven
      (fillBoard emptyBoard g).2.2).1
    0 (DIFFICULTY_CONFIG d).maxAttempts
    (shuffleInPlace (List.range 81)
      (randInt (DIFFICULTY_CONFIG d).minGiven (DIFFICULTY_CONFIG d).maxGiven
        (fillBoard emptyBoard g).2.2).2).2
    (extends_refl _) (uniqC_of_complete _ hcomp)
  rw [hsol, hpz]
  refine ⟨hlegal, hext, huniq, ?_⟩
  have hle81 : (randInt (DIFFICULTY_CONFIG d).minGiven (DIFFICULTY_CONFIG d).maxGiven
      (fillBoard emptyBoard g).2.2).1 ≤ 81 :=
    le_trans htb.2 (config_max_le_81 d)
  have hmin : min (countFilled (fillBoard emptyBoard g).2.1)
      (randInt (DIFFICULTY_CONFIG d).minGiven (DIFFICULTY_CONFIG d).maxGiven
        (fillBoard emptyBoard g).2.2).1
      = (randInt (DIFFICULTY_CONFIG d).minGiven (DIFFICULTY_CONFIG d).maxGiven
        (fillBoard emptyBoard g).2.2).1 := by
    rw [hcf]
    exact Nat.min_eq_right hle81
  rw [hmin] at hcount
  exact hcount

/-! ### Claim C9: the given-count never drops below the carve target -/

/-- C9: the carve target chosen at random lies in
[minGiven, maxGiven], and the given-count of the generated puzzle is at
least that target (the loop only removes while the count exceeds the
target, an accepted removal lowers the count by exactly one and a
rejected one restores the cell), hence at least minGiven. -/
theorem C9_count_at_least_target (d : DifficultyLevel) (g : Rng) :
    (DIFFICULTY_CONFIG d).minGiven ≤
      (randInt (DIFFICULTY_CONFIG d).minGiven (DIFFICULTY_CONFIG d).maxGiven
        (fillBoard emptyBoard g).2.2).1
    ∧ (randInt (DIFFICULTY_CONFIG d).minGiven (DIFFICULTY_CONFIG d).maxGiven
        (fillBoard emptyBoard g).2.2).1 ≤ (DIFFICULTY_CONFIG d).maxGiven
    ∧ (randInt (DIFFICULTY_CONFIG d).minGiven (DIFFICULTY_CONFIG d).maxGiven
        (fillBoard emptyBoard g).2.2).1
      ≤ countFilled (generatePuzzle d g).1.puzzle
    ∧ (DIFFICULTY_CONFIG d).minGiven ≤ countFilled (generatePuzzle d g).1.puzzle := by
  have htb := randInt_bounds (DIFFICULTY_CONFIG d).minGiven
    (DIFFICULTY_CONFIG d).maxGiven (fillBoard emptyBoard g).2.2
    (config_min_le_max d)
  have hcore := (generatePuzzle_core d g).2.2.2
  exact ⟨htb.1, htb.2, hcore, le_trans htb.1 hcore⟩

/-! ### Claim C6: bounds on the given-count -/

/-- C6: for every difficulty level the given-count of the generated
puzzle is at least minGiven and never exceeds 81 (being a count of a
list of 81 cells it is a natural number, so it is never negative). -/
theorem C6_given_count_bounds (d : DifficultyLevel) (g : Rng) :
    (DIFFICULTY_CONFIG d).minGiven ≤ countFilled (generatePuzzle d g).1.puzzle
    ∧ countFilled (generatePuzzle d g).1.puzzle ≤ 81 := by
  have htb := randInt_bounds (DIFFICULTY_CONFIG d).minGiven
    (DIFFICULTY_CONFIG d).maxGiven (fillBoard emptyBoard g).2.2
    (config_min_le_max d)
  exact ⟨le_trans htb.1 (generatePuzzle_core d g).2.2.2,
    countFilled_le (generatePuzzle d g).1.puzzle⟩

/-! ### Claim C10: the attempt budget never fires -/

/-- C10: every difficulty profile's budget maxAttempts * 81 is at least
243; the loop pops one position and counts one attempt per iteration, so
the attempts consumed never exceed the length of the removal order; and
whenever the budget covers the removal order (as it always does for the
81-position order against a budget of at least 243) its exact value does
not affect the loop at all, i.e. the budget condition never causes
termination. -/
theorem C10_attempt_budget_never_binds :
    (∀ d, 243 ≤ (DIFFICULTY_CONFIG d).maxAttempts * 81)
    ∧ (∀ (b : Board) (cells : List Nat) (target attempts maxA : Nat) (g : Rng),
        (carveLoop b cells target attempts maxA g).2.1 ≤ attempts + cells.length)
    ∧ (∀ (b : Board) (cells : List Nat) (target attempts maxA maxB : Nat) (g : Rng),
        attempts + cells.length ≤ maxA * 81 →
        attempts + cells.length ≤ maxB * 81 →
        carveLoop b cells target attempts maxA g
          = carveLoop b cells target attempts maxB g)
    ∧ (∀ (d : DifficultyLevel) (b : Board) (target maxB : Nat) (g gs : Rng),
        1 ≤ maxB →
        carveLoop b (shuffleInPlace (List.range 81) gs).1 target 0
          (DIFFICULTY_CONFIG d).maxAttempts g
        = carveLoop b (shuffleInPlace (List.range 81) gs).1 target 0 maxB g) := by
  have hlen81 : ∀ gs : Rng, (shuffleInPlace (List.range 81) gs).1.length = 81 := by
    intro gs
    rw [shuffleInPlace_length, List.length_range]
  refine ⟨fun d => by cases d <;> decide,
    fun b cells target attempts maxA g =>
      carveLoop_attempts cells.length cells rfl b target attempts maxA g,
    fun b cells target attempts maxA maxB g hA hB =>
      carveLoop_budget cells.length cells rfl b target attempts maxA maxB g hA hB,
    fun d b target maxB g gs hB => ?_⟩
  apply carveLoop_budget _ _ rfl
  · rw [hlen81 gs]
    have : 243 ≤ (DIFFICULTY_CONFIG d).maxAttempts * 81 := by cases d <;> decide
    omega
  · rw [hlen81 gs]
    omega

/-! ### Claim C1: the carved puzzle has exactly one completion -/

/-- C1: for every difficulty level and random stream, the generated
puzzle grid has exactly one complete legal extension, that extension is
the returned solution grid, count-mode solve on the puzzle (under any
random stream) reports exactly 1 solution, and first-solution solve on
the puzzle succeeds and writes exactly the solution grid into the
caller's board. -/
theorem C1_generated_puzzle_unique (d : DifficultyLevel) (g gs : Rng) :
    (∃! x, LegalCompletion (generatePuzzle d g).1.puzzle x)
    ∧ LegalCompletion (generatePuzzle d g).1.puzzle (generatePuzzle d g).1.solution
    ∧ (∀ x, LegalCompletion (generatePuzzle d g).1.puzzle x →
        x = (generatePuzzle d g).1.solution)
    ∧ (solve (generatePuzzle d g).1.puzzle true gs).1.1.solutions = some 1
    ∧ (solve (generatePuzzle d g).1.puzzle false gs).1.1.solved = true
    ∧ (solve (generatePuzzle d g).1.puzzle false gs).1.2
        = (generatePuzzle d g).1.solution := by
  obtain ⟨hlegal, hext, huniq, _⟩ := generatePuzzle_core d g
  have hlegsol : LegalCompletion (generatePuzzle d g).1.puzzle
      (generatePuzzle d g).1.solution :=
    legal_completion_of_extends _ _ hlegal hext
  have hscompsol : SolverCompletion (generatePuzzle d g).1.puzzle
      (generatePuzzle d g).1.solution :=
    scomp_of_legal _ _ hlegsol
  obtain ⟨u, hu, huu⟩ := huniq
  have husol : (generatePuzzle d g).1.solution = u := huu _ hscompsol
  have hone : ∀ x, LegalCompletion (generatePuzzle d g).1.puzzle x →
      x = (generatePuzzle d g).1.solution := by
    intro x hx
    rw [husol]
    exact huu x (scomp_of_legal _ _ hx)
  refine ⟨⟨(generatePuzzle d g).1.solution, hlegsol, hone⟩, hlegsol, hone, ?_, ?_⟩
  · obtain ⟨nn, hn, _, _, _, hn1, _⟩ :=
      solve_count_spec (generatePuzzle d g).1.puzzle gs
    rw [hn, hn1.2 ⟨u, hu, huu⟩]
  · rcases hE : backtrackAux false 81 (generatePuzzle d g).1.puzzle 0 gs
      with ⟨ok, b2, sols2, g2⟩
    have hres := back_solve_inv 81 (generatePuzzle d g).1.puzzle 0 gs ok b2 sols2 g2
      (emptyCount_le _) hE
    cases hok : ok with
    | false =>
      exact absurd ⟨_, hscompsol⟩ (hres.2 hok).2
    | true =>
      have hb2 : b2 = (generatePuzzle d g).1.solution := by
        rw [husol]
        exact huu b2 (hres.1 hok)
      constructor
      · simp [solve, hE, hok]
      · rw [show (solve (generatePuzzle d g).1.puzzle false gs).1.2 = b2 by
          simp [solve, hE, hok]]
        exact hb2

/-- In a complete legal grid, two distinct cells of a shared unit hold
distinct values. -/
theorem legal_values_distinct (x : Board) (hx : LegalCompletion emptyBoard x)
    (p q : Fin 9 × Fin 9) (hne : ¬(q.1 = p.1 ∧ q.2 = p.2))
    (hsame : sameUnit p.1 p.2 q.1 q.2) :
    x q.1 q.2 ≠ x p.1 p.2 := by
  have hnc := (hx.2.2 p.1 p.2).2.2
  exact ((noConflictAt_iff x p.1 p.2).1 hnc).2 q.1 q.2 hsame hne

/-- The unit-level pigeonhole: an injective assignment of the nine cells
of a unit to values 1..9 hits every value exactly once. -/
theorem unit_exactly_once (x : Board) (hx : LegalCompletion emptyBoard x)
    (cell : Fin 9 → Fin 9 × Fin 9)
    (hinj : ∀ i j : Fin 9, i ≠ j →
      ¬((cell j).1 = (cell i).1 ∧ (cell j).2 = (cell i).2))
    (hsame : ∀ i j : Fin 9, sameUnit (cell i).1 (cell i).2 (cell j).1 (cell j).2)
    (k : Fin 9) :
    ∃! i : Fin 9, x (cell i).1 (cell i).2 = k.val + 1 := by
  have hbnd : ∀ i : Fin 9, 1 ≤ x (cell i).1 (cell i).2
      ∧ x (cell i).1 (cell i).2 ≤ 9 := by
    intro i
    exact ⟨(hx.2.2 (cell i).1 (cell i).2).1, (hx.2.2 (cell i).1 (cell i).2).2.1⟩
  have hvinj : Function.Injective
      (fun i : Fin 9 => (⟨x (cell i).1 (cell i).2 - 1, by
        have := hbnd i
        omega⟩ : Fin 9)) := by
    intro i j hij
    by_contra hne
    have hdist := legal_values_distinct x hx (cell i) (cell j)
      (hinj i j hne) (hsame i j)
    have hvi := hbnd i
    have hvj := hbnd j
    simp only [Fin.mk.injEq] at hij
    have heq : x (cell i).1 (cell i).2 = x (cell j).1 (cell j).2 := by omega
    exact hdist heq.symm
  have hsurj := Finite.injective_iff_surjective.1 hvinj
  obtain ⟨i, hi⟩ := hsurj k
  have hiv : x (cell i).1 (cell i).2 - 1 = k.val := congrArg Fin.val hi
  have hvi := hbnd i
  refine ⟨i, by omega, ?_⟩
  intro j hj
  apply hvinj
  apply Fin.ext
  simp only
  have hvj := hbnd j
  omega

theorem legal_grid_units (x : Board) (hx : LegalCompletion emptyBoard x) :
    (∀ (r k : Fin 9), ∃! c : Fin 9, x r c = k.val + 1)
    ∧ (∀ (c k : Fin 9), ∃! r : Fin 9, x r c = k.val + 1)
    ∧ (∀ (t u : Fin 3) (k : Fin 9), ∃! p : Fin 3 × Fin 3,
        x (boxCell t p.1) (boxCell u p.2) = k.val + 1) := by
  refine ⟨?_, ?_, ?_⟩
  · intro r k
    exact unit_exactly_once x hx (fun c => (r, c))
      (by
        intro i j hne hc
        exact hne (Fin.ext (by simpa using congrArg Fin.val hc.2.symm)))
      (fun i j => Or.inl rfl) k
  · intro c k
    exact unit_exactly_once x hx (fun r => (r, c))
      (by
        intro i j hne hc
        exact hne (Fin.ext (by simpa using congrArg Fin.val hc.1.symm)))
      (fun i j => Or.inr (Or.inl rfl)) k
  · intro t u k
    have hcell : ∀ i : Fin 9,
        ((boxCell t ⟨i.val / 3, by omega⟩, boxCell u ⟨i.val % 3, by omega⟩) :
          Fin 9 × Fin 9).1.val / 3 = t.val := by
      intro i
      simp only [boxCell]
      omega
    have h := unit_exactly_once x hx
      (fun i => (boxCell t ⟨i.val / 3, by omega⟩, boxCell u ⟨i.val % 3, by omega⟩))
      (by
        intro i j hne hc
        apply hne
        apply Fin.ext
        have h1 := congrArg Fin.val hc.1
        have h2 := congrArg Fin.val hc.2
        simp only [boxCell] at h1 h2
        omega)
      (by
        intro i j
        refine Or.inr (Or.inr ⟨?_, ?_⟩) <;> simp only [boxCell] <;> omega)
      k
    obtain ⟨i, hi, hiu⟩ := h
    refine ⟨(⟨i.val / 3, by omega⟩, ⟨i.val % 3, by omega⟩), hi, ?_⟩
    intro p hp
    have hpid : p = (⟨(3 * p.1.val + p.2.val) / 3, by omega⟩,
        ⟨(3 * p.1.val + p.2.val) % 3, by omega⟩) := by
      refine Prod.ext (Fin.ext ?_) (Fin.ext ?_) <;> simp <;> omega
    have hieq : (⟨3 * p.1.val + p.2.val, by omega⟩ : Fin 9) = i := by
      apply hiu
      rw [hpid] at hp
      exact hp
    rw [hpid]
    have := congrArg Fin.val hieq
    simp only at this
    refine Prod.ext (Fin.ext ?_) (Fin.ext ?_) <;> simp <;> omega

/-- C3: the solution grid returned by generatePuzzle is fully filled and
legal: every row, every column, and every 3x3 box contains each of the
values 1..9 exactly once. -/
theorem C3_solution_grid_legal (d : DifficultyLevel) (g : Rng) :
    Complete (generatePuzzle d g).1.solution
    ∧ (∀ (r k : Fin 9), ∃! c : Fin 9,
        (generatePuzzle d g).1.solution r c = k.val + 1)
    ∧ (∀ (c k : Fin 9), ∃! r : Fin 9,
        (generatePuzzle d g).1.solution r c = k.val + 1)
    ∧ (∀ (t u : Fin 3) (k : Fin 9), ∃! p : Fin 3 × Fin 3,
        (generatePuzzle d g).1.solution (boxCell t p.1) (boxCell u p.2)
          = k.val + 1) := by
  have hlegal := (generatePuzzle_core d g).1
  obtain ⟨h1, h2, h3⟩ := legal_grid_units (generatePuzzle d g).1.solution hlegal
  exact ⟨hlegal.1, h1, h2, h3⟩

/-- C2 witness: on the concrete complete grid G0 the count-mode solver
reports exactly one solution. -/
theorem C2_solve_count_mode_witness :
    (solve G0 true rng0).1.1.solutions = some 1 := by
  obtain ⟨n, hn, _, _, _, h1, _⟩ := C2_solve_count_mode G0 rng0
  rw [hn, h1.2 (uniqC_of_complete G0 (by decide))]

/-- C4 witness: count mode leaves the concrete caller grid G0 untouched. -/
theorem C4_solve_frame_witness :
    (solve G0 true rng0).1.2 = G0 :=
  (C4_solve_frame G0 rng0).1

/-- C1 witness: a concrete generated EASY puzzle passes the uniqueness
check. -/
theorem C1_generated_puzzle_unique_witness :
    (solve (generatePuzzle DifficultyLevel.EASY rng0).1.puzzle true rng0).1.1.solutions
      = some 1 :=
  (C1_generated_puzzle_unique DifficultyLevel.EASY rng0 rng0).2.2.2.1

/-- C3 witness: a concrete generated MEDIUM solution grid is complete. -/
theorem C3_solution_grid_legal_witness :
    Complete (generatePuzzle DifficultyLevel.MEDIUM rng0).1.solution :=
  (C3_solution_grid_legal DifficultyLevel.MEDIUM rng0).1

/-- C6 witness: a concrete generated EASY puzzle keeps its given-count
within bounds. -/
theorem C6_given_count_bounds_witness :
    (DIFFICULTY_CONFIG DifficultyLevel.EASY).minGiven
        ≤ countFilled (generatePuzzle DifficultyLevel.EASY rng0).1.puzzle
    ∧ countFilled (generatePuzzle DifficultyLevel.EASY rng0).1.puzzle ≤ 81 :=
  C6_given_count_bounds DifficultyLevel.EASY rng0

/-- C9 witness: a concrete generated HARD puzzle has at least minGiven
given cells. -/
theorem C9_count_at_least_target_witness :
    (DIFFICULTY_CONFIG DifficultyLevel.HARD).minGiven
      ≤ countFilled (generatePuzzle DifficultyLevel.HARD rng0).1.puzzle :=
  (C9_count_at_least_target DifficultyLevel.HARD rng0).2.2.2

/-- C10 witness: on a concrete empty removal order two different budgets
agree. -/
theorem C10_attempt_budget_never_binds_witness :
    carveLoop emptyBoard [] 0 0 3 rng0 = carveLoop emptyBoard [] 0 0 5 rng0 :=
  C10_attempt_budget_never_binds.2.2.1 emptyBoard [] 0 0 3 5 rng0
    (by simp) (by simp)

/-- C7 witness: the EASY entry of the table satisfies its range
invariant. -/
theorem C7_difficulty_config_ordered_witness :
    (DIFFICULTY_CONFIG DifficultyLevel.EASY).minGiven
        ≤ (DIFFICULTY_CONFIG DifficultyLevel.EASY).maxGiven
    ∧ (DIFFICULTY_CONFIG DifficultyLevel.EASY).maxGiven ≤ 81 :=
  C7_difficulty_config_ordered.1 DifficultyLevel.EASY
